import Mathlib

/-!
The modelbox storage mappers (`server/storage/sql_mapper_structs.go`)

A shallow embedding of the SQL row mappers of the modelbox metadata store and
the properties of them that the design document states.

Conventions of the embedding:

* a Go `string` is a byte sequence, `GoString`;
* a Go slice is `GoSlice α`: `none` is the nil slice, `some l` a non-nil slice;
* a Go pointer that may be nil is an `Option`;
* a Go map is `GoMap V`: the nil map, or the entries in the order in which a
  `range` loop visits them (the keys of a map are pairwise distinct);
* `int64` and `uint64` columns that are only copied are `Int` and `Nat`.
-/

namespace Modelbox

/-! ## Go values -/

/-- A Go `string`: an immutable sequence of bytes. -/
abbrev GoString := List UInt8

/-- The bytes of a string literal (its UTF-8 encoding, as in Go source text). -/
def str (s : String) : GoString := s.toUTF8.data.toList

/-- A Go slice: `none` is the nil slice. -/
abbrev GoSlice (α : Type) := Option (List α)

/-- A Go `map[string]V`: nil, or its entries in `range` order. -/
inductive GoMap (V : Type) where
  | nil : GoMap V
  | mk (entries : List (GoString × V)) : GoMap V
deriving DecidableEq, Repr

namespace GoMap

variable {V : Type}

/-- The entries a `range` loop over the map visits, in order; none for nil. -/
def entries : GoMap V → List (GoString × V)
  | nil => []
  | mk es => es

/-- The keys of the map, in `range` order. -/
def keys (m : GoMap V) : List GoString := m.entries.map Prod.fst

/-- The builtin `len(m)`. -/
def len (m : GoMap V) : Nat := m.entries.length

/-- The lookup `m[k]` with its presence flag: `none` when the key is absent. -/
def get? (m : GoMap V) (k : GoString) : Option V :=
  (m.entries.find? (fun e => e.1 == k)).map Prod.snd

/-- The well-formedness of a map value: no key occurs twice. -/
def WF (m : GoMap V) : Prop := m.keys.Nodup

/-- Two map values hold the same key/value pairs. -/
def SameEntries (m₁ m₂ : GoMap V) : Prop := ∀ k, m₁.get? k = m₂.get? k

end GoMap

/-- The assignment `m[k] = v` on the entries of a non-nil map: the value of an
existing key is replaced in place, a new key is added. -/
def assign {K V : Type} [DecidableEq K] : List (K × V) → K → V → List (K × V)
  | [], k, v => [(k, v)]
  | (k', v') :: rest, k, v =>
    if k' = k then (k, v) :: rest else (k', v') :: assign rest k v

/-! ## SHA-1 (`crypto/sha1`, FIPS 180-4) on 32-bit words held as `Nat` -/

/-- Rotate a 32-bit word left by `n` bits. -/
def rotl32 (x n : Nat) : Nat := ((x <<< n) ||| (x >>> (32 - n))) % 2 ^ 32

/-- The big-endian bytes of `x`, `n` of them. -/
def bigEndian : Nat → Nat → List UInt8
  | 0, _ => []
  | n + 1, x => UInt8.ofNat (x >>> (8 * n) % 256) :: bigEndian n x

/-- Message padding: a one bit, zeros up to 56 mod 64, the bit length on 8 bytes. -/
def sha1Pad (msg : List UInt8) : List UInt8 :=
  msg ++ [0x80] ++ List.replicate ((119 - msg.length % 64) % 64) 0 ++
    bigEndian 8 (8 * msg.length)

/-- The big-endian 32-bit words of a byte sequence. -/
def toWords : List UInt8 → List Nat
  | a :: b :: c :: d :: rest =>
    (a.toNat <<< 24 ||| b.toNat <<< 16 ||| c.toNat <<< 8 ||| d.toNat) :: toWords rest
  | _ => []

/-- The message schedule: `k` more words after the ones in `w`. -/
def sha1Schedule : Nat → List Nat → List Nat
  | 0, w => w
  | k + 1, w =>
    let t := w.length
    sha1Schedule k (w ++ [rotl32 (w.getD (t - 3) 0 ^^^ w.getD (t - 8) 0 ^^^
      w.getD (t - 14) 0 ^^^ w.getD (t - 16) 0) 1])

/-- The five chaining words. -/
structure Sha1State where
  a : Nat
  b : Nat
  c : Nat
  d : Nat
  e : Nat
deriving DecidableEq, Repr

/-- One of the eighty rounds, `t` being its index and `wt` its schedule word. -/
def sha1Round (s : Sha1State) (t wt : Nat) : Sha1State :=
  let fk : Nat × Nat :=
    if t < 20 then ((s.b &&& s.c) ||| ((s.b ^^^ 0xFFFFFFFF) &&& s.d), 0x5A827999)
    else if t < 40 then (s.b ^^^ s.c ^^^ s.d, 0x6ED9EBA1)
    else if t < 60 then ((s.b &&& s.c) ||| (s.b &&& s.d) ||| (s.c &&& s.d), 0x8F1BBCDC)
    else (s.b ^^^ s.c ^^^ s.d, 0xCA62C1D6)
  { a := (rotl32 s.a 5 + fk.1 + s.e + fk.2 + wt) % 2 ^ 32
    b := s.a
    c := rotl32 s.b 30
    d := s.c
    e := s.d }

/-- The compression of one 16-word block into the chaining state. -/
def sha1Block (h : Sha1State) (block : List Nat) : Sha1State :=
  let w := sha1Schedule 64 block
  let r := (List.range 80).foldl (fun s t => sha1Round s t (w.getD t 0)) h
  { a := (h.a + r.a) % 2 ^ 32
    b := (h.b + r.b) % 2 ^ 32
    c := (h.c + r.c) % 2 ^ 32
    d := (h.d + r.d) % 2 ^ 32
    e := (h.e + r.e) % 2 ^ 32 }

/-- The blocks of `n` elements of a list, `fuel` bounding their number. -/
def chunks {α : Type} (n : Nat) : Nat → List α → List (List α)
  | 0, _ => []
  | fuel + 1, l => if l.isEmpty then [] else l.take n :: chunks n fuel (l.drop n)

/-- The 20-byte SHA-1 digest of a message. -/
def sha1 (msg : List UInt8) : List UInt8 :=
  let words := toWords (sha1Pad msg)
  let h := (chunks 16 words.length words).foldl sha1Block
    { a := 0x67452301, b := 0xEFCDAB89, c := 0x98BADCFE, d := 0x10325476, e := 0xC3D2E1F0 }
  bigEndian 4 h.a ++ bigEndian 4 h.b ++ bigEndian 4 h.c ++ bigEndian 4 h.d ++ bigEndian 4 h.e

/-- A running `hash.Hash`: the bytes written to it so far. -/
structure Hash where
  written : List UInt8
deriving DecidableEq, Repr

/-- The `sha1.New()` constructor: nothing written yet. -/
def sha1New : Hash := { written := [] }

/-- The `Write` method of the hash (what `io.WriteString` calls). -/
def Hash.Write (h : Hash) (p : List UInt8) : Hash := { written := h.written ++ p }

/-- The `Sum(b)` method: `b` followed by the digest of everything written. -/
def Hash.Sum (h : Hash) (b : List UInt8) : List UInt8 := b ++ sha1 h.written

/-- One lowercase hexadecimal digit, as its ASCII byte. -/
def hexDigit (n : Nat) : UInt8 := UInt8.ofNat (if n < 10 then 48 + n else 87 + n)

/-- The formatting `fmt.Sprintf("%x", b)` of a byte slice: two lowercase
hexadecimal digits per byte. -/
def sprintfHex (b : List UInt8) : GoString :=
  b.flatMap (fun x => [hexDigit (x.toNat / 16), hexDigit (x.toNat % 16)])

/-- Modelled from the spec: the helper `hashString(h, s)`, which is not in the
mapper file. The design notes call the derivation `sha1(parentId+key)`, an
ad hoc concatenation: the string's bytes are written to the hash, with no
length prefix and no separator. -/
def hashString (h : Hash) (s : GoString) : Hash := h.Write s

/-! ## Entities (declared next to the mappers; the fields are the ones the mappers use) -/

/-- The `error` interface value, held as its message. -/
abbrev GoError := String

/-- The `MLFramework` enumeration, an integer type declared outside the mapper
file; its values are kept as mathematical integers. -/
abbrev MLFramework := Int

/-- The conversion `uint8(x)` of an integer: its low eight bits. -/
def toUint8 (x : Int) : UInt8 := UInt8.ofNat (x % 256).toNat

/-- The conversion `int8(x)` of an integer: its low eight bits, read as a
two's complement number in -128..127. -/
def toInt8 (x : Int) : Int := (x + 128) % 256 - 128

/-- The `float32` of a metric, held as its IEEE-754 bit pattern (metrics are
only copied by the mappers). -/
abbrev Float32Bits := Nat

/-- The type `SerializableMetrics`, a `map[string]float32`. -/
abbrev SerializableMetrics := GoMap Float32Bits

/-- The type `SerializableTags`, a `[]string`. -/
abbrev SerializableTags := GoSlice GoString

/-- The type `FileMIMEType`, an integer enumeration declared outside the file. -/
abbrev FileMIMEType := Int

/-- The struct `FileMetadata`. -/
structure FileMetadata where
  Id : GoString
  ParentId : GoString
  Type' : FileMIMEType
  Path : GoString
  Checksum : GoString
  CreatedAt : Int
  UpdatedAt : Int
deriving DecidableEq, Repr

/-- The type `FileSet`, a `[]*FileMetadata`. -/
abbrev FileSet := GoSlice (Option FileMetadata)

/-- The struct `Model`. -/
structure Model where
  Id : GoString
  Name : GoString
  Owner : GoString
  Namespace : GoString
  Task : GoString
  Description : GoString
  Files : FileSet
  CreatedAt : Int
  UpdatedAt : Int
deriving DecidableEq, Repr

/-- The struct `ModelVersion`. -/
structure ModelVersion where
  Id : GoString
  Name : GoString
  ModelId : GoString
  Version : GoString
  Description : GoString
  Framework : MLFramework
  Files : FileSet
  UniqueTags : SerializableTags
  CreatedAt : Int
  UpdatedAt : Int
deriving DecidableEq, Repr

/-- The struct `Experiment`. -/
structure Experiment where
  Id : GoString
  Name : GoString
  Owner : GoString
  Namespace : GoString
  ExternalId : GoString
  Framework : MLFramework
  Exists : Bool
  CreatedAt : Int
  UpdatedAt : Int
deriving DecidableEq, Repr

/-- The struct `Checkpoint` (the update timestamp is spelled `UpdtedAt`). -/
structure Checkpoint where
  Id : GoString
  ExperimentId : GoString
  Epoch : Nat
  Files : FileSet
  Metrics : SerializableMetrics
  CreatedAt : Int
  UpdtedAt : Int
deriving DecidableEq, Repr

/-! ## Rows and mappers, in the order of the source file -/

/-- The row `ModelSchema`. -/
structure ModelSchema where
  Id : GoString
  Name : GoString
  Owner : GoString
  Namespace : GoString
  Task : GoString
  Desc : GoString
  CreatedAt : Int
  UpdatedAt : Int
deriving DecidableEq, Repr

/-- The method `(*ModelSchema).ToModel`. -/
def ModelSchema.ToModel (m : ModelSchema) (files : FileSet) : Model :=
  let model : Model :=
    { Id := m.Id
      Name := m.Name
      Owner := m.Owner
      Namespace := m.Namespace
      Task := m.Task
      Description := m.Desc
      Files := some []
      CreatedAt := m.CreatedAt
      UpdatedAt := m.UpdatedAt }
  if files ≠ none then { model with Files := files } else model

/-- The function `ModelToSchema`. -/
def ModelToSchema (m : Model) : ModelSchema :=
  { Id := m.Id
    Name := m.Name
    Owner := m.Owner
    Namespace := m.Namespace
    Task := m.Task
    Desc := m.Description
    CreatedAt := m.CreatedAt
    UpdatedAt := m.UpdatedAt }

/-- The row `ModelVersionSchema`; `Framework` is an `int8` column. -/
structure ModelVersionSchema where
  Id : GoString
  Name : GoString
  Model : GoString
  Version : GoString
  Desc : GoString
  Framework : Int
  UniqueTags : SerializableTags
  Tags : SerializableTags
  CreatedAt : Int
  UpdatedAt : Int
deriving DecidableEq, Repr

/-- The method `(*ModelVersionSchema).ToModelVersion`. -/
def ModelVersionSchema.ToModelVersion (m : ModelVersionSchema) (files : FileSet) :
    ModelVersion :=
  { Id := m.Id
    Name := m.Name
    ModelId := m.Model
    Version := m.Version
    Description := m.Desc
    Framework := m.Framework
    Files := files
    UniqueTags := m.UniqueTags
    CreatedAt := m.CreatedAt
    UpdatedAt := m.UpdatedAt }

/-- The function `ModelVersionToSchema`; `Tags` is left at its zero value. -/
def ModelVersionToSchema (mv : ModelVersion) : ModelVersionSchema :=
  { Id := mv.Id
    Name := mv.Name
    Model := mv.ModelId
    Version := mv.Version
    Desc := mv.Description
    Framework := toInt8 mv.Framework
    UniqueTags := mv.UniqueTags
    Tags := none
    CreatedAt := mv.CreatedAt
    UpdatedAt := mv.UpdatedAt }

/-- The row `FileSchema`; `Meta` is a `types.JSONText`, a byte slice. -/
structure FileSchema where
  Id : GoString
  ParentId : GoString
  Meta : List UInt8
deriving DecidableEq, Repr

/-- The struct `BlobMeta` local to `ToFile`. -/
structure BlobMeta where
  Type' : FileMIMEType
  Path : GoString
  Checksum : GoString
  CreatedAt : Int
  UpdatedAt : Int
deriving DecidableEq, Repr

/-- The zero value `BlobMeta{}`. -/
def BlobMeta.zero : BlobMeta :=
  { Type' := 0, Path := [], Checksum := [], CreatedAt := 0, UpdatedAt := 0 }

/-- The signature of `json.Unmarshal(data, &v)` at type `T`: from the bytes and
the value `v` holds before the call, the value it holds after it and the
returned error (`none` is the nil error). The decoder belongs to the standard
library; the mappers take it as an argument. -/
abbrev Unmarshal (T : Type) := List UInt8 → T → T × Option GoError

/-- The method `(*FileSchema).ToFile`: the pair of Go results. -/
def FileSchema.ToFile (unmarshal : Unmarshal BlobMeta) (b : FileSchema) :
    Option FileMetadata × Option GoError :=
  let bm := BlobMeta.zero
  match unmarshal b.Meta bm with
  | (_, some err) => (none, some err)
  | (bm, none) =>
    (some
      { Id := b.Id
        ParentId := b.ParentId
        Type' := bm.Type'
        Path := bm.Path
        Checksum := bm.Checksum
        CreatedAt := bm.CreatedAt
        UpdatedAt := bm.UpdatedAt }, none)

/-- The loop of `ToFileSet`: `rows` are the rows still to visit, `i` the index
of the first of them, `fileSet` the slice being filled. -/
def ToFileSet.loop (unmarshal : Unmarshal BlobMeta) :
    List FileSchema → Nat → List (Option FileMetadata) → FileSet × Option GoError
  | [], _, fileSet => (some fileSet, none)
  | row :: rest, i, fileSet =>
    match row.ToFile unmarshal with
    | (_, some err) => (none, some err)
    | (file, none) => ToFileSet.loop unmarshal rest (i + 1) (fileSet.set i file)

/-- The function `ToFileSet`: a slice of `len(rows)` nil pointers is made and
filled row by row; a nil and an empty `rows` behave alike. -/
def ToFileSet (unmarshal : Unmarshal BlobMeta) (rows : List FileSchema) :
    FileSet × Option GoError :=
  ToFileSet.loop unmarshal rows 0 (List.replicate rows.length none)

/-- The row `ExperimentSchema`; `Framework` is a `uint8` column. -/
structure ExperimentSchema where
  Id : GoString
  ExternId : GoString
  Name : GoString
  Owner : GoString
  Namespace : GoString
  Framework : UInt8
  CreatedAt : Int
  UpdatedAt : Int
deriving DecidableEq, Repr

/-- The method `(*ExperimentSchema).ToExperiment`. -/
def ExperimentSchema.ToExperiment (e : ExperimentSchema) : Experiment :=
  { Id := e.Id
    Name := e.Name
    Owner := e.Owner
    Namespace := e.Namespace
    ExternalId := e.ExternId
    Framework := (e.Framework.toNat : Int)
    Exists := false
    CreatedAt := e.CreatedAt
    UpdatedAt := e.UpdatedAt }

/-- The function `FromExperimentToSchema`. -/
def FromExperimentToSchema (experiment : Experiment) : ExperimentSchema :=
  { Id := experiment.Id
    ExternId := experiment.ExternalId
    Name := experiment.Name
    Owner := experiment.Owner
    Namespace := experiment.Namespace
    Framework := toUint8 experiment.Framework
    CreatedAt := experiment.CreatedAt
    UpdatedAt := experiment.UpdatedAt }

/-- The row `CheckpointSchema`. -/
structure CheckpointSchema where
  Id : GoString
  Experiment : GoString
  Epoch : Nat
  Metrics : SerializableMetrics
  CreatedAt : Int
  UpdatedAt : Int
deriving DecidableEq, Repr

/-- The method `(*CheckpointSchema).ToCheckpoint`. -/
def CheckpointSchema.ToCheckpoint (c : CheckpointSchema) (files : FileSet) : Checkpoint :=
  { Id := c.Id
    ExperimentId := c.Experiment
    Epoch := c.Epoch
    Files := files
    Metrics := c.Metrics
    CreatedAt := c.CreatedAt
    UpdtedAt := c.UpdatedAt }

/-- The function `ToCheckpointSchema`. -/
def ToCheckpointSchema (c : Checkpoint) : CheckpointSchema :=
  { Id := c.Id
    Experiment := c.ExperimentId
    Epoch := c.Epoch
    Metrics := c.Metrics
    CreatedAt := c.CreatedAt
    UpdatedAt := c.UpdtedAt }

/-- The row `MetadataSchema`; `V` stands for `*structpb.Value`, which the
mappers copy and never inspect. -/
structure MetadataSchema (V : Type) where
  Id : GoString
  ParentId : GoString
  Metadata : GoMap V
deriving DecidableEq, Repr

/-- The function `toMetadata`: every entry of every row is assigned, in order,
into a map made empty. -/
def toMetadata {V : Type} (rows : List (MetadataSchema V)) : GoMap V :=
  GoMap.mk (rows.foldl
    (fun metadata m => m.Metadata.entries.foldl (fun md kv => assign md kv.1 kv.2) metadata)
    [])

/-- The function `toMetadataSchema`: one appended row per visited entry, whose
id is the hexadecimal SHA-1 sum of a fresh hash fed `parentId` and the key. -/
def toMetadataSchema {V : Type} (parentId : GoString) (metadata : GoMap V) :
    List (MetadataSchema V) :=
  metadata.entries.foldl
    (fun rows kv =>
      let h := sha1New
      let h := hashString h parentId
      let h := hashString h kv.1
      let id := sprintfHex (h.Sum [])
      let m : MetadataSchema V :=
        { Id := id, ParentId := parentId, Metadata := GoMap.mk [(kv.1, kv.2)] }
      rows ++ [m])
    []

/-- The bytes the hash has been fed when `toMetadataSchema` takes its sum for
the key `key` of the parent `parentId`. -/
def hashedInput (parentId key : GoString) : List UInt8 :=
  (hashString (hashString sha1New parentId) key).written

/-- A value of the empty interface handed to `Scan`, by its dynamic type: the
types a database driver yields, and any other type under its name (a named
byte-slice type such as `json.RawMessage` is not `[]byte`). -/
inductive DriverValue where
  | null : DriverValue
  | int64 (v : Int) : DriverValue
  | float64 (bits : Nat) : DriverValue
  | bool (b : Bool) : DriverValue
  | bytes (b : List UInt8) : DriverValue
  | string (s : GoString) : DriverValue
  | time (unixNano : Int) : DriverValue
  | other (dynamicType : String) : DriverValue
deriving DecidableEq, Repr

/-- The type `SerializableMetadata`, a `map[string]*structpb.Value`. -/
abbrev SerializableMetadata (V : Type) := GoMap V

/-- The method `(*SerializableMetadata).Scan`: the receiver map after the call
and the returned error. -/
def SerializableMetadata.Scan {V : Type} (unmarshal : Unmarshal (GoMap V))
    (s : SerializableMetadata V) (value : DriverValue) :
    SerializableMetadata V × Option GoError :=
  match value with
  | DriverValue.bytes b => unmarshal b s
  | _ => (s, some "type assertion to []byte failed")

/-- The type `SerializablePayload`, a `map[string]interface{}`; `A` stands for
the values of the empty interface. -/
abbrev SerializablePayload (A : Type) := GoMap A

/-- The method `(*SerializablePayload).Scan`: the receiver map after the call
and the returned error. -/
def SerializablePayload.Scan {A : Type} (unmarshal : Unmarshal (GoMap A))
    (s : SerializablePayload A) (value : DriverValue) :
    SerializablePayload A × Option GoError :=
  match value with
  | DriverValue.bytes b => unmarshal b s
  | _ => (s, some "type assertion to []byte failed")

/-- The row `MutationEventSchema`; the two `uint64` columns are `Nat`. -/
structure MutationEventSchema (A : Type) where
  MutationId : Nat
  MutationTime : Nat
  Action : GoString
  ObjectId : GoString
  ObjectType : GoString
  ParentId : GoString
  Namespace : GoString
  Payload : SerializablePayload A
deriving DecidableEq, Repr

/-! ## The change feed -/

/-- Modelled from the spec: the id `AppendMutation` assigns, which is not in
the mapper file: strictly above every id of the feed. -/
def nextMutationId {A : Type} (feed : List (MutationEventSchema A)) : Nat :=
  (feed.map (fun e => e.MutationId)).foldr max 0 + 1

/-- Modelled from the spec: the operation `AppendMutation(event)`, which is
not in the mapper file: the event is appended to the feed under a strictly
increasing `MutationId` and the `MutationTime` read from the clock, `now`. -/
def AppendMutation {A : Type} (feed : List (MutationEventSchema A)) (now : Nat)
    (event : MutationEventSchema A) : List (MutationEventSchema A) :=
  feed ++ [{ event with MutationId := nextMutationId feed, MutationTime := now }]

/-- Modelled from the spec: a sequence of successful mutating calls, which are
not in the mapper file: each call, made at the time `call.1`, commits its
write and appends exactly one event, `call.2`, to the feed. -/
def mutatingCalls {A : Type} (feed : List (MutationEventSchema A))
    (calls : List (Nat × MutationEventSchema A)) : List (MutationEventSchema A) :=
  calls.foldl (fun fd call => AppendMutation fd call.1 call.2) feed

/-- Modelled from the spec: the operation `ListChanges(namespace, since)`,
which is not in the mapper file: the events of the namespace with
`MutationTime >= since`, ordered by `MutationId` ascending. -/
def ListChanges {A : Type} (feed : List (MutationEventSchema A)) (ns : GoString)
    (since : Nat) : List (MutationEventSchema A) :=
  (feed.filter (fun e => e.Namespace = ns ∧ since ≤ e.MutationTime)).insertionSort
    (fun a b => a.MutationId ≤ b.MutationId)

/-! ## The record store -/

/-- Modelled from the spec: the backing record store and its upsert, which are
not in the mapper file. A table is the list of its rows, at most one per
primary key `key row`; `upsert` overwrites the row that has the key of the new
row, or adds the new row when there is none. -/
def upsert {R : Type} (key : R → GoString) : List R → R → List R
  | [], row => [row]
  | r :: rest, row => if key r = key row then row :: rest else r :: upsert key rest row

/-- Modelled from the spec: the invariant of a table of the record store, no
two rows with the same primary key. -/
def UniqueKeys {R : Type} (key : R → GoString) (table : List R) : Prop :=
  (table.map key).Nodup

/-- Modelled from the spec: the query behind `ListMetadata(parentId)`, the
rows of the metadata table that belong to the parent. -/
def rowsOfParent {V : Type} (table : List (MetadataSchema V)) (parentId : GoString) :
    List (MetadataSchema V) :=
  table.filter (fun r => r.ParentId = parentId)

/-- Modelled from the spec: the rows of a table that have the primary key `id`. -/
def rowsWithId {R : Type} (key : R → GoString) (table : List R) (id : GoString) : List R :=
  table.filter (fun r => key r = id)

/-- Modelled from the spec: the operation `UpdateMetadata(parentId, metadata)`
of the metadata annotation store, which is not in the mapper file: the rows
that `toMetadataSchema` builds are upserted one by one, keyed by their id. -/
def updateMetadata {V : Type} (table : List (MetadataSchema V)) (parentId : GoString)
    (metadata : GoMap V) : List (MetadataSchema V) :=
  (toMetadataSchema parentId metadata).foldl (upsert MetadataSchema.Id) table

/-- Modelled from the spec: the operation `ListMetadata(parentId)`, which is
not in the mapper file: `toMetadata` combines the current rows of the parent. -/
def listMetadata {V : Type} (table : List (MetadataSchema V)) (parentId : GoString) :
    GoMap V :=
  toMetadata (rowsOfParent table parentId)

/-- A decoder used to instantiate the file mappers in examples: it accepts the
document `{}`, leaving the value as it was, and reports anything else. -/
def unmarshalEmptyObject : Unmarshal BlobMeta := fun data v =>
  if data = str "\x7b\x7d" then (v, none) else (v, some "invalid character")

/-- A decoder used to instantiate the file mappers in examples: it accepts the
empty document, leaving the value as it was, and a document with the keys
`Id` and `Path`, of which it stores the path; it reports anything else. -/
def unmarshalPathOnly : Unmarshal BlobMeta := fun data v =>
  if data = str "\x7b\x7d" then (v, none)
  else if data = str "\x7b\x22Id\x22:\x22x\x22,\x22Path\x22:\x22/foo/bar\x22\x7d" then
    ({ v with Path := str "/foo/bar" }, none)
  else (v, some "invalid character")

/-! ## Values of the test suite, used in examples -/

/-- The experiment of `TestObjectCreateIdempotency`, under a fixed id. -/
def sampleExperiment : Experiment :=
  { Id := str "e1"
    Name := str "quartznet-lid"
    Owner := str "owner@email"
    Namespace := str "langtech"
    ExternalId := str "xyz"
    Framework := 1
    Exists := false
    CreatedAt := 0
    UpdatedAt := 0 }

/-- The checkpoint of `TestObjectCreateIdempotency`, under a fixed id. -/
def sampleCheckpoint : Checkpoint :=
  { Id := str "c1"
    ExperimentId := str "e1"
    Epoch := 45
    Files := none
    Metrics := GoMap.mk [(str "val_loss", 0x3D27EF9E), (str "train_accu", 0x42C4051F)]
    CreatedAt := 0
    UpdtedAt := 0 }

/-- The model of `TestObjectCreateIdempotency`, under a fixed id. -/
def sampleModel : Model :=
  { Id := str "m1"
    Name := str "gpt3"
    Owner := str "owner@email"
    Namespace := str "ai/langtech/translation"
    Task := str "translate"
    Description := str "description"
    Files := some []
    CreatedAt := 0
    UpdatedAt := 0 }

/-- The model version of `TestCreateModelVersion`, under a fixed id. -/
def sampleModelVersion : ModelVersion :=
  { Id := str "v1"
    Name := str "test-version"
    ModelId := str "gpt3"
    Version := str "1"
    Description := str "testing"
    Framework := 1
    Files := some []
    UniqueTags := some [str "foo", str "bar"]
    CreatedAt := 0
    UpdatedAt := 0 }

/-- A file row whose metadata is the document `{}`. -/
def sampleFileRow (id : String) : FileSchema :=
  { Id := str id, ParentId := str "gpt3", Meta := str "\x7b\x7d" }

/-- A file row whose metadata is cut short. -/
def brokenFileRow (id : String) : FileSchema :=
  { Id := str id, ParentId := str "gpt3", Meta := str "\x7b" }

/-! ## Lemmas on the loops -/

section Lemmas

variable {V : Type}

theorem foldl_append_singleton {α β : Type} (f : α → β) (l : List α) (init : List β) :
    l.foldl (fun acc x => acc ++ [f x]) init = init ++ l.map f := by
  induction l generalizing init with
  | nil => simp
  | cons x xs ih => simp [ih]

theorem sum_hashString (parentId key : GoString) :
    (hashString (hashString sha1New parentId) key).Sum [] =
      sha1 (hashedInput parentId key) := by
  unfold Hash.Sum hashedInput
  exact List.nil_append _

/-- The rows of `toMetadataSchema`, entry by entry. -/
theorem toMetadataSchema_eq_map (parentId : GoString) (m : GoMap V) :
    toMetadataSchema parentId m =
      m.entries.map (fun kv =>
        ({ Id := sprintfHex (sha1 (hashedInput parentId kv.1))
           ParentId := parentId
           Metadata := GoMap.mk [(kv.1, kv.2)] } : MetadataSchema V)) := by
  unfold toMetadataSchema
  simp only [sum_hashString]
  rw [foldl_append_singleton]
  simp

theorem assign_of_not_mem {K : Type} [DecidableEq K] (es : List (K × V)) (k : K) (v : V)
    (h : k ∉ es.map Prod.fst) : assign es k v = es ++ [(k, v)] := by
  induction es with
  | nil => rfl
  | cons e rest ih =>
    obtain ⟨k', v'⟩ := e
    simp only [List.map_cons, List.mem_cons, not_or] at h
    have hne : ¬ k' = k := fun hk => h.1 hk.symm
    simp [assign, hne, ih h.2]

theorem foldl_assign_of_nodup {K : Type} [DecidableEq K] (l acc : List (K × V))
    (h : ((acc ++ l).map Prod.fst).Nodup) :
    l.foldl (fun md kv => assign md kv.1 kv.2) acc = acc ++ l := by
  induction l generalizing acc with
  | nil => simp
  | cons e rest ih =>
    have hnot : e.1 ∉ acc.map Prod.fst := by
      intro hmem
      rw [List.map_append, List.map_cons] at h
      have := (List.nodup_append.mp h).2.2
      exact this hmem (List.mem_cons_self _ _)
    have h' : (((acc ++ [e]) ++ rest).map Prod.fst).Nodup := by
      simpa [List.append_assoc] using h
    simp only [List.foldl_cons]
    rw [assign_of_not_mem acc e.1 e.2 hnot]
    rw [ih (acc ++ [e]) h']
    simp

/-- The map `toMetadata` rebuilds from one-entry rows, as a loop over the entries. -/
theorem toMetadata_singleton_rows (l : List (GoString × V))
    (row : GoString × V → MetadataSchema V)
    (hrow : ∀ kv, (row kv).Metadata = GoMap.mk [(kv.1, kv.2)]) :
    toMetadata (l.map row) = GoMap.mk (l.foldl (fun md kv => assign md kv.1 kv.2) []) := by
  unfold toMetadata
  rw [List.foldl_map]
  simp [hrow, GoMap.entries]

theorem GoMap.get?_eq_some_iff (m : GoMap V) (hm : m.WF) (k : GoString) (v : V) :
    m.get? k = some v ↔ (k, v) ∈ m.entries := by
  unfold GoMap.get?
  unfold GoMap.WF GoMap.keys at hm
  generalize m.entries = es at hm
  induction es with
  | nil => simp
  | cons e rest ih =>
    obtain ⟨k', v'⟩ := e
    simp only [List.map_cons, List.nodup_cons] at hm
    by_cases hk : k' = k
    · subst hk
      have hnot : ∀ w, (k', w) ∉ rest := fun w hw =>
        hm.1 (List.mem_map.mpr ⟨(k', w), hw, rfl⟩)
      simp [List.find?_cons, hnot]
      exact eq_comm
    · have hbeq : (k' == k) = false := by simpa using hk
      simp only [List.find?_cons, hbeq, List.mem_cons, Prod.mk.injEq]
      rw [ih hm.2]
      constructor
      · exact fun h => Or.inr h
      · rintro (⟨h1, _⟩ | h)
        · exact absurd h1.symm hk
        · exact h

theorem GoMap.sameEntries_of_perm (m₁ m₂ : GoMap V) (h₂ : m₂.WF)
    (hperm : m₁.entries.Perm m₂.entries) : m₁.SameEntries m₂ := by
  have h₁ : m₁.WF := by
    unfold GoMap.WF GoMap.keys at *
    exact (hperm.map Prod.fst).nodup_iff.mpr h₂
  intro k
  apply Option.ext
  intro v
  simp only [Option.mem_def]
  rw [GoMap.get?_eq_some_iff m₁ h₁, GoMap.get?_eq_some_iff m₂ h₂]
  exact hperm.mem_iff

/-- The metadata map is rebuilt from its own rows, entry for entry. -/
theorem toMetadata_toMetadataSchema (parentId : GoString) (m : GoMap V) (hm : m.WF) :
    toMetadata (toMetadataSchema parentId m) = GoMap.mk m.entries := by
  rw [toMetadataSchema_eq_map, toMetadata_singleton_rows _ _ (fun _ => rfl)]
  rw [foldl_assign_of_nodup m.entries [] (by simpa [GoMap.WF, GoMap.keys] using hm)]
  simp

theorem upsert_same_key {R : Type} (key : R → GoString) (table : List R) (r₁ r₂ : R)
    (hkey : key r₁ = key r₂) :
    upsert key (upsert key table r₁) r₂ = upsert key table r₂ := by
  induction table with
  | nil => simp [upsert, hkey]
  | cons r rest ih =>
    by_cases h : key r = key r₁
    · have h' : key r = key r₂ := h.trans hkey
      simp [upsert, h, h', hkey]
    · have h' : ¬ key r = key r₂ := fun e => h (e.trans hkey.symm)
      simp [upsert, h, h', ih]

theorem filter_upsert_of_filter_nil {R : Type} (key : R → GoString) (q : R → Bool)
    (table : List R) (row : R) (hq : q row = true) (hnil : table.filter q = []) :
    (upsert key table row).filter q = [row] := by
  induction table with
  | nil => simp [upsert, hq]
  | cons r rest ih =>
    have hr : q r = false := by
      cases hc : q r with
      | false => rfl
      | true => simp [List.filter_cons, hc] at hnil
    have hrest : rest.filter q = [] := by
      simpa [List.filter_cons, hr] using hnil
    by_cases h : key r = key row
    · simp [upsert, h, List.filter_cons, hq, hrest]
    · simp [upsert, h, List.filter_cons, hr, ih hrest]

theorem rowsWithId_upsert {R : Type} (key : R → GoString) (table : List R) (row : R)
    (huniq : UniqueKeys key table) :
    rowsWithId key (upsert key table row) (key row) = [row] := by
  unfold rowsWithId
  induction table with
  | nil => simp [upsert]
  | cons r rest ih =>
    unfold UniqueKeys at huniq ih
    simp only [List.map_cons, List.nodup_cons] at huniq
    by_cases h : key r = key row
    · have hnot : ∀ x ∈ rest, ¬ key x = key row := fun x hx e =>
        huniq.1 (List.mem_map.mpr ⟨x, hx, e.trans h.symm⟩)
      have hrest : rest.filter (fun x => decide (key x = key row)) = [] := by
        rw [List.filter_eq_nil_iff]
        intro x hx
        simpa using hnot x hx
      simp [upsert, h, List.filter_cons, hrest]
    · simp [upsert, h, List.filter_cons, ih huniq.2]

theorem length_bigEndian (n x : Nat) : (bigEndian n x).length = n := by
  induction n with
  | zero => rfl
  | succ n ih => simp [bigEndian, ih]

theorem length_sha1 (msg : List UInt8) : (sha1 msg).length = 20 := by
  unfold sha1
  simp only [List.length_append, length_bigEndian]

/-- The digest of `abc`, the first test vector of the standard. -/
theorem sha1_abc :
    sprintfHex (sha1 (str "abc")) = str "a9993e364706816aba3e25717850c26c9cd0d89d" := by
  set_option maxRecDepth 1000000 in
  rfl

theorem length_sprintfHex (b : List UInt8) : (sprintfHex b).length = 2 * b.length := by
  unfold sprintfHex
  induction b with
  | nil => rfl
  | cons x xs ih => simp only [List.flatMap_cons, List.length_append, ih]; simp; omega

theorem hexDigit_mem : ∀ n, n < 16 → hexDigit n ∈ str "0123456789abcdef" := by
  decide

theorem sprintfHex_lowercase (b : List UInt8) :
    ∀ c ∈ sprintfHex b, c ∈ str "0123456789abcdef" := by
  intro c hc
  unfold sprintfHex at hc
  rw [List.mem_flatMap] at hc
  obtain ⟨x, _, hx⟩ := hc
  have hlt : x.toNat < 256 := x.val.isLt
  simp only [List.mem_cons, List.mem_singleton, List.not_mem_nil, or_false] at hx
  rcases hx with rfl | rfl
  · exact hexDigit_mem _ (by omega)
  · exact hexDigit_mem _ (by omega)

end Lemmas

/-! ## The metadata annotation rows -/

section Metadata

variable {V : Type}

/-- C1. Metadata round trip: whatever the order `order` in which the entries of
the map `m` are visited when the rows are built, `toMetadata` of the rows of
`toMetadataSchema` holds the same key/value pairs as `m`, as many of them, and
no key twice; this includes the empty and the nil map. -/
theorem metadata_round_trip (parentId : GoString) (m order : GoMap V) (hm : m.WF)
    (horder : order.entries.Perm m.entries) :
    (toMetadata (toMetadataSchema parentId order)).SameEntries m ∧
      (toMetadata (toMetadataSchema parentId order)).len = m.len ∧
      (toMetadata (toMetadataSchema parentId order)).WF := by
  have hwf : order.WF := by
    unfold GoMap.WF GoMap.keys at *
    exact (horder.map Prod.fst).nodup_iff.mpr hm
  rw [toMetadata_toMetadataSchema parentId order hwf]
  refine ⟨GoMap.sameEntries_of_perm _ m hm horder, ?_, hwf⟩
  simpa [GoMap.len, GoMap.entries] using horder.length_eq

/-- An instance of C1: a two-entry map visited in the other order. -/
theorem metadata_round_trip_witness :
    (GoMap.mk [(str "a", 1), (str "b", 2)] : GoMap Nat).WF ∧
      (GoMap.mk [(str "b", 2), (str "a", 1)] : GoMap Nat).entries.Perm
        (GoMap.mk [(str "a", 1), (str "b", 2)] : GoMap Nat).entries ∧
      ((toMetadata (toMetadataSchema (str "parent-id1")
          (GoMap.mk [(str "b", 2), (str "a", 1)] : GoMap Nat))).SameEntries
          (GoMap.mk [(str "a", 1), (str "b", 2)]) ∧
        (toMetadata (toMetadataSchema (str "parent-id1")
          (GoMap.mk [(str "b", 2), (str "a", 1)] : GoMap Nat))).len =
          (GoMap.mk [(str "a", 1), (str "b", 2)] : GoMap Nat).len ∧
        (toMetadata (toMetadataSchema (str "parent-id1")
          (GoMap.mk [(str "b", 2), (str "a", 1)] : GoMap Nat))).WF) :=
  ⟨by unfold GoMap.WF; decide, List.Perm.swap _ _ _,
    metadata_round_trip (str "parent-id1") (GoMap.mk [(str "a", 1), (str "b", 2)])
      (GoMap.mk [(str "b", 2), (str "a", 1)]) (by unfold GoMap.WF; decide)
      (List.Perm.swap _ _ _)⟩

/-- C2. Metadata overwrite: the rows built for `{k: v₁}` and for `{k: v₂}`
under the parent `p` are one row each, with the same id and the same parent;
in a store keyed by row id that holds no row of `p`, updating with the first
map and then with the second leaves exactly one row for `p`, and the listed
metadata of `p` is the one-entry map `{k: v₂}`. -/
theorem metadata_overwrite (p k : GoString) (v₁ v₂ : V) (table : List (MetadataSchema V))
    (hnone : rowsOfParent table p = []) :
    (toMetadataSchema p (GoMap.mk [(k, v₁)])).length = 1 ∧
      (toMetadataSchema p (GoMap.mk [(k, v₂)])).length = 1 ∧
      (toMetadataSchema p (GoMap.mk [(k, v₁)])).map MetadataSchema.Id =
        (toMetadataSchema p (GoMap.mk [(k, v₂)])).map MetadataSchema.Id ∧
      (toMetadataSchema p (GoMap.mk [(k, v₁)])).map MetadataSchema.ParentId =
        (toMetadataSchema p (GoMap.mk [(k, v₂)])).map MetadataSchema.ParentId ∧
      (rowsOfParent
        (updateMetadata (updateMetadata table p (GoMap.mk [(k, v₁)])) p (GoMap.mk [(k, v₂)]))
        p).length = 1 ∧
      listMetadata
        (updateMetadata (updateMetadata table p (GoMap.mk [(k, v₁)])) p (GoMap.mk [(k, v₂)]))
        p = GoMap.mk [(k, v₂)] := by
  have hrows : rowsOfParent
      (updateMetadata (updateMetadata table p (GoMap.mk [(k, v₁)])) p (GoMap.mk [(k, v₂)])) p =
      [{ Id := sprintfHex (sha1 (hashedInput p k)), ParentId := p,
         Metadata := GoMap.mk [(k, v₂)] }] := by
    unfold updateMetadata
    rw [toMetadataSchema_eq_map, toMetadataSchema_eq_map]
    simp only [GoMap.entries, List.map_cons, List.map_nil, List.foldl_cons, List.foldl_nil]
    rw [upsert_same_key MetadataSchema.Id table
      ⟨sprintfHex (sha1 (hashedInput p k)), p, GoMap.mk [(k, v₁)]⟩
      ⟨sprintfHex (sha1 (hashedInput p k)), p, GoMap.mk [(k, v₂)]⟩ rfl]
    exact filter_upsert_of_filter_nil _ _ _ _ (by simp) hnone
  refine ⟨?_, ?_, ?_, ?_, ?_, ?_⟩
  · rw [toMetadataSchema_eq_map]; rfl
  · rw [toMetadataSchema_eq_map]; rfl
  · rw [toMetadataSchema_eq_map, toMetadataSchema_eq_map]; rfl
  · rw [toMetadataSchema_eq_map, toMetadataSchema_eq_map]; rfl
  · rw [hrows]; rfl
  · unfold listMetadata
    rw [hrows]
    rfl

/-- An instance of C2: the key `/tmp/foo` of `parent-id1` written twice into a
store that holds a row of another parent. -/
theorem metadata_overwrite_witness :
    rowsOfParent
        [(⟨str "0a", str "parent-id2", GoMap.mk [(str "/tmp/hola", 7)]⟩ : MetadataSchema Nat)]
        (str "parent-id1") = [] ∧
      listMetadata
        (updateMetadata
          (updateMetadata
            [(⟨str "0a", str "parent-id2", GoMap.mk [(str "/tmp/hola", 7)]⟩ :
              MetadataSchema Nat)]
            (str "parent-id1") (GoMap.mk [(str "/tmp/foo", 1)]))
          (str "parent-id1") (GoMap.mk [(str "/tmp/foo", 2)]))
        (str "parent-id1") = GoMap.mk [(str "/tmp/foo", 2)] :=
  ⟨by decide,
    (metadata_overwrite (str "parent-id1") (str "/tmp/foo") 1 2
      [⟨str "0a", str "parent-id2", GoMap.mk [(str "/tmp/hola", 7)]⟩] (by decide)).2.2.2.2.2⟩

/-- C3. The rows of `toMetadataSchema`: as many rows as the map has keys, one
key per row and no key in two rows; the row of the entry `(k, v)` has the
parent id `parentId`, the one-entry map `{k: v}` and, as id, the lowercase
hexadecimal SHA-1 sum (forty digits) of a hash fed `parentId` and then `k`;
two rows for the same key, built from any two maps, have the same id. -/
theorem toMetadataSchema_rows (parentId : GoString) (m : GoMap V) (hm : m.WF) :
    (toMetadataSchema parentId m).length = m.len ∧
      (toMetadataSchema parentId m).flatMap (fun row => row.Metadata.keys) = m.keys ∧
      ((toMetadataSchema parentId m).flatMap (fun row => row.Metadata.keys)).Nodup ∧
      toMetadataSchema parentId m =
        m.entries.map (fun kv =>
          ({ Id := sprintfHex ((hashString (hashString sha1New parentId) kv.1).Sum [])
             ParentId := parentId
             Metadata := GoMap.mk [(kv.1, kv.2)] } : MetadataSchema V)) ∧
      (∀ row ∈ toMetadataSchema parentId m,
        row.Id.length = 40 ∧ ∀ c ∈ row.Id, c ∈ str "0123456789abcdef") ∧
      (∀ (m' : GoMap V) (row row' : MetadataSchema V),
        row ∈ toMetadataSchema parentId m → row' ∈ toMetadataSchema parentId m' →
        row.Metadata.keys = row'.Metadata.keys → row.Id = row'.Id) := by
  have hkeys : (toMetadataSchema parentId m).flatMap (fun row => row.Metadata.keys) =
      m.keys := by
    rw [toMetadataSchema_eq_map]
    unfold GoMap.keys
    generalize m.entries = es
    induction es with
    | nil => rfl
    | cons e rest ih =>
      simp only [List.map_cons, List.flatMap_cons, ih]
      rfl
  refine ⟨?_, hkeys, ?_, ?_, ?_, ?_⟩
  · rw [toMetadataSchema_eq_map, List.length_map]; rfl
  · rw [hkeys]; exact hm
  · simp only [sum_hashString]
    exact toMetadataSchema_eq_map parentId m
  · intro row hrow
    rw [toMetadataSchema_eq_map, List.mem_map] at hrow
    obtain ⟨kv, _, rfl⟩ := hrow
    refine ⟨?_, sprintfHex_lowercase _⟩
    show (sprintfHex _).length = 40
    rw [length_sprintfHex, length_sha1]
  · intro m' row row' hrow hrow' hk
    rw [toMetadataSchema_eq_map, List.mem_map] at hrow hrow'
    obtain ⟨kv, _, rfl⟩ := hrow
    obtain ⟨kv', _, rfl⟩ := hrow'
    have hkk : kv.1 = kv'.1 := by
      have : [kv.1] = [kv'.1] := hk
      exact List.head_eq_of_cons_eq this
    show sprintfHex _ = sprintfHex _
    rw [hkk]

/-- An instance of C3: the rows of a two-entry map. -/
theorem toMetadataSchema_rows_witness :
    (GoMap.mk [(str "/tmp/foo", 1), (str "/tmp/hola", 2)] : GoMap Nat).WF ∧
      (toMetadataSchema (str "parent-id1")
        (GoMap.mk [(str "/tmp/foo", 1), (str "/tmp/hola", 2)] : GoMap Nat)).length =
        (GoMap.mk [(str "/tmp/foo", 1), (str "/tmp/hola", 2)] : GoMap Nat).len :=
  ⟨by unfold GoMap.WF; decide,
    (toMetadataSchema_rows (str "parent-id1")
      (GoMap.mk [(str "/tmp/foo", 1), (str "/tmp/hola", 2)])
      (by unfold GoMap.WF; decide)).1⟩

/-- The ids of the rows built for the single key `key` of the parent `parentId`. -/
theorem toMetadataSchema_singleton_id (parentId key : GoString) (v : V) :
    (toMetadataSchema parentId (GoMap.mk [(key, v)])).map MetadataSchema.Id =
      [sprintfHex (sha1 (hashedInput parentId key))] := by
  rw [toMetadataSchema_eq_map]
  rfl

theorem hashedInput_eq (parentId key : GoString) : hashedInput parentId key = parentId ++ key := by
  unfold hashedInput hashString Hash.Write sha1New
  exact congrArg (fun l => l ++ key) (List.nil_append parentId)

/-- C4, the claim as stated fails: `x` and `xx` are different strings, and the
id derived for the parent `x` and the key `xx` is the id derived for the
parent `xx` and the key `x`. -/
theorem derived_id_order_counterexample :
    str "x" ≠ str "xx" ∧
      (toMetadataSchema (str "x") (GoMap.mk [(str "xx", ())])).map MetadataSchema.Id =
        (toMetadataSchema (str "xx") (GoMap.mk [(str "x", ())])).map MetadataSchema.Id := by
  refine ⟨by decide, ?_⟩
  rw [toMetadataSchema_singleton_id, toMetadataSchema_singleton_id]
  have h : hashedInput (str "x") (str "xx") = hashedInput (str "xx") (str "x") := by decide
  rw [h]

/-- C4, amended. The id derived for `(a, b)` is the hexadecimal SHA-1 sum of the
bytes of `a` followed by the bytes of `b`: it is the same whatever value the
key carries, each time it is computed; the bytes hashed for `(a, b)` and for
`(b, a)` differ exactly when `a ++ b` and `b ++ a` differ, and when these are
equal the two ids are equal. -/
theorem derived_id_order (a b : GoString) (v w : V) :
    (toMetadataSchema a (GoMap.mk [(b, v)])).map MetadataSchema.Id =
        [sprintfHex (sha1 (a ++ b))] ∧
      (toMetadataSchema a (GoMap.mk [(b, v)])).map MetadataSchema.Id =
        (toMetadataSchema a (GoMap.mk [(b, w)])).map MetadataSchema.Id ∧
      (hashedInput a b ≠ hashedInput b a ↔ a ++ b ≠ b ++ a) ∧
      (a ++ b = b ++ a →
        (toMetadataSchema a (GoMap.mk [(b, v)])).map MetadataSchema.Id =
          (toMetadataSchema b (GoMap.mk [(a, w)])).map MetadataSchema.Id) := by
  refine ⟨?_, ?_, ?_, ?_⟩
  · rw [toMetadataSchema_singleton_id, hashedInput_eq]
  · rw [toMetadataSchema_singleton_id, toMetadataSchema_singleton_id]
  · rw [hashedInput_eq, hashedInput_eq]
  · intro h
    rw [toMetadataSchema_singleton_id, toMetadataSchema_singleton_id, hashedInput_eq,
      hashedInput_eq, h]

/-- An instance of C4 as amended: the strings `x` and `xx` commute. -/
theorem derived_id_order_witness :
    str "x" ++ str "xx" = str "xx" ++ str "x" ∧
      (toMetadataSchema (str "x") (GoMap.mk [(str "xx", 1)])).map MetadataSchema.Id =
        (toMetadataSchema (str "xx") (GoMap.mk [(str "x", 2)])).map MetadataSchema.Id :=
  ⟨by decide, (derived_id_order (str "x") (str "xx") 1 2).2.2.2 (by decide)⟩

/-- C5, the claim as stated fails: the pairs `(ab, c)` and `(a, bc)` are
different, yet the hash is fed the same bytes for both, and the ids derived
for them are equal. -/
theorem field_separation_counterexample :
    (str "ab", str "c") ≠ (str "a", str "bc") ∧
      hashedInput (str "ab") (str "c") = hashedInput (str "a") (str "bc") ∧
      (toMetadataSchema (str "ab") (GoMap.mk [(str "c", ())])).map MetadataSchema.Id =
        (toMetadataSchema (str "a") (GoMap.mk [(str "bc", ())])).map MetadataSchema.Id := by
  have h : hashedInput (str "ab") (str "c") = hashedInput (str "a") (str "bc") := by decide
  refine ⟨by decide, h, ?_⟩
  rw [toMetadataSchema_singleton_id, toMetadataSchema_singleton_id, h]

/-- C5, amended. The bytes fed to the hash for `(parentId, key)` are the bytes
of `parentId` followed by the bytes of `key`, with nothing between them: they
determine the concatenation and not the pair. Two pairs are fed different
bytes exactly when their concatenations differ; two pairs with the same
concatenation get the same id. -/
theorem field_separation (p₁ k₁ p₂ k₂ : GoString) (v w : V) :
    hashedInput p₁ k₁ = p₁ ++ k₁ ∧
      (hashedInput p₁ k₁ ≠ hashedInput p₂ k₂ ↔ p₁ ++ k₁ ≠ p₂ ++ k₂) ∧
      (p₁ ++ k₁ = p₂ ++ k₂ →
        (toMetadataSchema p₁ (GoMap.mk [(k₁, v)])).map MetadataSchema.Id =
          (toMetadataSchema p₂ (GoMap.mk [(k₂, w)])).map MetadataSchema.Id) := by
  refine ⟨hashedInput_eq p₁ k₁, ?_, ?_⟩
  · rw [hashedInput_eq, hashedInput_eq]
  · intro h
    rw [toMetadataSchema_singleton_id, toMetadataSchema_singleton_id, hashedInput_eq,
      hashedInput_eq, h]

/-- An instance of C5 as amended: `(ab, c)` and `(a, bc)` concatenate alike. -/
theorem field_separation_witness :
    str "ab" ++ str "c" = str "a" ++ str "bc" ∧
      (toMetadataSchema (str "ab") (GoMap.mk [(str "c", 1)])).map MetadataSchema.Id =
        (toMetadataSchema (str "a") (GoMap.mk [(str "bc", 2)])).map MetadataSchema.Id :=
  ⟨by decide, (field_separation (str "ab") (str "c") (str "a") (str "bc") 1 2).2.2 (by decide)⟩

end Metadata

/-! ## The entity rows -/

theorem upsert_twice {R : Type} (key : R → GoString) (table : List R) (row : R)
    (huniq : UniqueKeys key table) :
    upsert key (upsert key table row) row = upsert key table row ∧
      rowsWithId key (upsert key (upsert key table row) row) (key row) = [row] := by
  have h := upsert_same_key key table row row rfl
  exact ⟨h, by rw [h]; exact rowsWithId_upsert key table row huniq⟩

/-- C6. Idempotent create through the mappers: for an experiment, a checkpoint,
a model and a model version, the row the mapper builds has the id of the
entity; upserting that row twice into a table with one row per id gives the
table of the first upsert, in which the rows with that id are this row alone. -/
theorem create_idempotent (e : Experiment) (c : Checkpoint) (m : Model) (mv : ModelVersion)
    (te : List ExperimentSchema) (tc : List CheckpointSchema) (tm : List ModelSchema)
    (tv : List ModelVersionSchema)
    (he : UniqueKeys ExperimentSchema.Id te) (hc : UniqueKeys CheckpointSchema.Id tc)
    (hm : UniqueKeys ModelSchema.Id tm) (hv : UniqueKeys ModelVersionSchema.Id tv) :
    ((FromExperimentToSchema e).Id = e.Id ∧
        upsert ExperimentSchema.Id (upsert ExperimentSchema.Id te (FromExperimentToSchema e))
            (FromExperimentToSchema e) =
          upsert ExperimentSchema.Id te (FromExperimentToSchema e) ∧
        rowsWithId ExperimentSchema.Id
            (upsert ExperimentSchema.Id (upsert ExperimentSchema.Id te (FromExperimentToSchema e))
              (FromExperimentToSchema e)) e.Id = [FromExperimentToSchema e]) ∧
      ((ToCheckpointSchema c).Id = c.Id ∧
        upsert CheckpointSchema.Id (upsert CheckpointSchema.Id tc (ToCheckpointSchema c))
            (ToCheckpointSchema c) =
          upsert CheckpointSchema.Id tc (ToCheckpointSchema c) ∧
        rowsWithId CheckpointSchema.Id
            (upsert CheckpointSchema.Id (upsert CheckpointSchema.Id tc (ToCheckpointSchema c))
              (ToCheckpointSchema c)) c.Id = [ToCheckpointSchema c]) ∧
      ((ModelToSchema m).Id = m.Id ∧
        upsert ModelSchema.Id (upsert ModelSchema.Id tm (ModelToSchema m)) (ModelToSchema m) =
          upsert ModelSchema.Id tm (ModelToSchema m) ∧
        rowsWithId ModelSchema.Id
            (upsert ModelSchema.Id (upsert ModelSchema.Id tm (ModelToSchema m))
              (ModelToSchema m)) m.Id = [ModelToSchema m]) ∧
      ((ModelVersionToSchema mv).Id = mv.Id ∧
        upsert ModelVersionSchema.Id
            (upsert ModelVersionSchema.Id tv (ModelVersionToSchema mv))
            (ModelVersionToSchema mv) =
          upsert ModelVersionSchema.Id tv (ModelVersionToSchema mv) ∧
        rowsWithId ModelVersionSchema.Id
            (upsert ModelVersionSchema.Id
              (upsert ModelVersionSchema.Id tv (ModelVersionToSchema mv))
              (ModelVersionToSchema mv)) mv.Id = [ModelVersionToSchema mv]) :=
  ⟨⟨rfl, upsert_twice ExperimentSchema.Id te (FromExperimentToSchema e) he⟩,
    ⟨rfl, upsert_twice CheckpointSchema.Id tc (ToCheckpointSchema c) hc⟩,
    ⟨rfl, upsert_twice ModelSchema.Id tm (ModelToSchema m) hm⟩,
    ⟨rfl, upsert_twice ModelVersionSchema.Id tv (ModelVersionToSchema mv) hv⟩⟩

/-- An instance of C6: the entities of the test suite, the experiment being
created into a table that already holds its row. -/
theorem create_idempotent_witness :
    UniqueKeys ExperimentSchema.Id [FromExperimentToSchema sampleExperiment] ∧
      UniqueKeys CheckpointSchema.Id [] ∧ UniqueKeys ModelSchema.Id [] ∧
      UniqueKeys ModelVersionSchema.Id [] ∧
      rowsWithId ExperimentSchema.Id
          (upsert ExperimentSchema.Id
            (upsert ExperimentSchema.Id [FromExperimentToSchema sampleExperiment]
              (FromExperimentToSchema sampleExperiment))
            (FromExperimentToSchema sampleExperiment)) sampleExperiment.Id =
        [FromExperimentToSchema sampleExperiment] :=
  ⟨by unfold UniqueKeys; decide, by unfold UniqueKeys; decide, by unfold UniqueKeys; decide,
    by unfold UniqueKeys; decide,
    (create_idempotent sampleExperiment sampleCheckpoint sampleModel sampleModelVersion
      [FromExperimentToSchema sampleExperiment] [] [] []
      (by unfold UniqueKeys; decide) (by unfold UniqueKeys; decide)
      (by unfold UniqueKeys; decide) (by unfold UniqueKeys; decide)).1.2.2⟩

/-- C10. Checkpoint mapping round trip: mapping a checkpoint to its row and back
with its own files keeps the id, the experiment id, the epoch, the metrics,
the files, the creation time and the update time (field `UpdtedAt`); mapping
a row to a checkpoint, with any files, and back gives the row. -/
theorem checkpoint_round_trip :
    (∀ c : Checkpoint,
        ((ToCheckpointSchema c).ToCheckpoint c.Files).Id = c.Id ∧
        ((ToCheckpointSchema c).ToCheckpoint c.Files).ExperimentId = c.ExperimentId ∧
        ((ToCheckpointSchema c).ToCheckpoint c.Files).Epoch = c.Epoch ∧
        ((ToCheckpointSchema c).ToCheckpoint c.Files).Metrics = c.Metrics ∧
        ((ToCheckpointSchema c).ToCheckpoint c.Files).Files = c.Files ∧
        ((ToCheckpointSchema c).ToCheckpoint c.Files).CreatedAt = c.CreatedAt ∧
        ((ToCheckpointSchema c).ToCheckpoint c.Files).UpdtedAt = c.UpdtedAt) ∧
      (∀ (s : CheckpointSchema) (f : FileSet), ToCheckpointSchema (s.ToCheckpoint f) = s) :=
  ⟨fun _ => ⟨rfl, rfl, rfl, rfl, rfl, rfl, rfl⟩, fun _ _ => rfl⟩

/-! ## The file rows -/

/-- The file `ToFile` returns for a row, given the decoded metadata. -/
theorem ToFile_of_decoded (unmarshal : Unmarshal BlobMeta) (row : FileSchema)
    (h : (unmarshal row.Meta BlobMeta.zero).2 = none) :
    row.ToFile unmarshal =
      (some
        { Id := row.Id
          ParentId := row.ParentId
          Type' := (unmarshal row.Meta BlobMeta.zero).1.Type'
          Path := (unmarshal row.Meta BlobMeta.zero).1.Path
          Checksum := (unmarshal row.Meta BlobMeta.zero).1.Checksum
          CreatedAt := (unmarshal row.Meta BlobMeta.zero).1.CreatedAt
          UpdatedAt := (unmarshal row.Meta BlobMeta.zero).1.UpdatedAt }, none) := by
  unfold FileSchema.ToFile
  rcases hr : unmarshal row.Meta BlobMeta.zero with ⟨bm, e⟩
  rw [hr] at h
  simp only at h
  subst h
  simp only [hr]

theorem ToFile_of_failed (unmarshal : Unmarshal BlobMeta) (row : FileSchema) (err : GoError)
    (h : (unmarshal row.Meta BlobMeta.zero).2 = some err) :
    row.ToFile unmarshal = (none, some err) := by
  unfold FileSchema.ToFile
  rcases hr : unmarshal row.Meta BlobMeta.zero with ⟨bm, e⟩
  rw [hr] at h
  simp only at h
  subst h
  simp only [hr]

theorem ToFile_error (unmarshal : Unmarshal BlobMeta) (row : FileSchema) :
    (row.ToFile unmarshal).2 = (unmarshal row.Meta BlobMeta.zero).2 := by
  cases h : (unmarshal row.Meta BlobMeta.zero).2 with
  | none => rw [ToFile_of_decoded unmarshal row h]
  | some err => rw [ToFile_of_failed unmarshal row err h]

theorem set_append_replicate {α : Type} (done : List α) (n : Nat) (x y : α) :
    (done ++ List.replicate (n + 1) x).set done.length y =
      (done ++ [y]) ++ List.replicate n x := by
  induction done with
  | nil => simp [List.replicate_succ]
  | cons d ds ih => simpa using ih

/-- The loop of `ToFileSet` over rows that all decode: the slots after the
filled ones receive the files of the rows, in order. -/
theorem ToFileSet_loop_of_decoded (unmarshal : Unmarshal BlobMeta) (rows : List FileSchema)
    (done : List (Option FileMetadata))
    (h : ∀ row ∈ rows, (unmarshal row.Meta BlobMeta.zero).2 = none) :
    ToFileSet.loop unmarshal rows done.length (done ++ List.replicate rows.length none) =
      (some (done ++ rows.map (fun row => (row.ToFile unmarshal).1)), none) := by
  induction rows generalizing done with
  | nil => simp [ToFileSet.loop]
  | cons row rest ih =>
    obtain ⟨file, hfile⟩ : ∃ file, row.ToFile unmarshal = (some file, none) :=
      ⟨_, ToFile_of_decoded unmarshal row (h row (List.mem_cons_self _ _))⟩
    have hrest : ∀ r ∈ rest, (unmarshal r.Meta BlobMeta.zero).2 = none :=
      fun r hr => h r (List.mem_cons_of_mem _ hr)
    unfold ToFileSet.loop
    rw [hfile]
    simp only [List.length_cons, List.map_cons]
    rw [set_append_replicate]
    have hstep := ih (done ++ [some file]) hrest
    simp only [List.length_append, List.length_singleton] at hstep
    rw [hstep, hfile]
    simp

/-- The loop of `ToFileSet` stops at the first row that does not decode. -/
theorem ToFileSet_loop_of_failed (unmarshal : Unmarshal BlobMeta)
    (pre : List FileSchema) (row : FileSchema) (post : List FileSchema) (err : GoError)
    (i : Nat) (fileSet : List (Option FileMetadata))
    (hpre : ∀ x ∈ pre, (unmarshal x.Meta BlobMeta.zero).2 = none)
    (hrow : (unmarshal row.Meta BlobMeta.zero).2 = some err) :
    ToFileSet.loop unmarshal (pre ++ row :: post) i fileSet = (none, some err) := by
  induction pre generalizing i fileSet with
  | nil =>
    simp only [List.nil_append]
    unfold ToFileSet.loop
    rw [ToFile_of_failed unmarshal row err hrow]
  | cons x xs ih =>
    have hx := ToFile_of_decoded unmarshal x (hpre x (List.mem_cons_self _ _))
    simp only [List.cons_append]
    unfold ToFileSet.loop
    rw [hx]
    exact ih _ _ (fun y hy => hpre y (List.mem_cons_of_mem _ hy))

/-- The loop of `ToFileSet` returns an error exactly when a row fails, and
then no slice. -/
theorem ToFileSet_loop_error (unmarshal : Unmarshal BlobMeta) (rows : List FileSchema)
    (i : Nat) (fileSet : List (Option FileMetadata)) :
    ((ToFileSet.loop unmarshal rows i fileSet).2 ≠ none ↔
        ∃ row ∈ rows, (unmarshal row.Meta BlobMeta.zero).2 ≠ none) ∧
      ((ToFileSet.loop unmarshal rows i fileSet).2 ≠ none →
        (ToFileSet.loop unmarshal rows i fileSet).1 = none) := by
  induction rows generalizing i fileSet with
  | nil => simp [ToFileSet.loop]
  | cons row rest ih =>
    cases h : (unmarshal row.Meta BlobMeta.zero).2 with
    | none =>
      unfold ToFileSet.loop
      rw [ToFile_of_decoded unmarshal row h]
      simp only [List.mem_cons, exists_eq_or_imp, h, ne_eq, not_true_eq_false, false_or]
      exact ih _ _
    | some err =>
      unfold ToFileSet.loop
      rw [ToFile_of_failed unmarshal row err h]
      simp [h]

/-- C7. Referential listing order: when the metadata of every row decodes,
`ToFileSet` returns no error and a slice as long as the rows whose element
`i` is the file `ToFile` returns for row `i`, with the id and the parent id of
that row; for no rows it returns an empty, non-nil slice and no error. -/
theorem ToFileSet_order (unmarshal : Unmarshal BlobMeta) (rows : List FileSchema)
    (hdec : ∀ row ∈ rows, (unmarshal row.Meta BlobMeta.zero).2 = none) :
    (∃ files, ToFileSet unmarshal rows = (some files, none) ∧ files.length = rows.length ∧
        ∀ (i : Nat) (row : FileSchema), rows[i]? = some row →
          ∃ file, files[i]? = some (some file) ∧
            row.ToFile unmarshal = (some file, none) ∧
            file.Id = row.Id ∧ file.ParentId = row.ParentId) ∧
      ToFileSet unmarshal rows =
        (some (rows.map (fun row => (row.ToFile unmarshal).1)), none) ∧
      ToFileSet unmarshal [] = (some [], none) := by
  have hall : ToFileSet unmarshal rows =
      (some (rows.map (fun row => (row.ToFile unmarshal).1)), none) := by
    have h := ToFileSet_loop_of_decoded unmarshal rows [] hdec
    simpa [ToFileSet] using h
  refine ⟨⟨_, hall, List.length_map _ _, ?_⟩, hall, rfl⟩
  intro i row hi
  have hfile := ToFile_of_decoded unmarshal row (hdec row (List.getElem?_mem hi))
  refine ⟨_, ?_, hfile, rfl, rfl⟩
  rw [List.getElem?_map, hi, Option.map_some', hfile]

/-- An instance of C7: two rows of one parent, whose metadata decodes. -/
theorem ToFileSet_order_witness :
    (∀ row ∈ [sampleFileRow "1", sampleFileRow "2"],
        (unmarshalEmptyObject row.Meta BlobMeta.zero).2 = none) ∧
      ToFileSet unmarshalEmptyObject [sampleFileRow "1", sampleFileRow "2"] =
        (some ([sampleFileRow "1", sampleFileRow "2"].map
          (fun row => (row.ToFile unmarshalEmptyObject).1)), none) :=
  ⟨by decide,
    (ToFileSet_order unmarshalEmptyObject [sampleFileRow "1", sampleFileRow "2"]
      (by decide)).2.1⟩

/-- C8. Decode failures are surfaced: `ToFileSet` returns an error exactly when
`ToFile` fails on one of the rows, and then it returns the nil slice; the
error is the one of the first failing row; `ToFile` fails exactly when the
metadata does not decode, and then returns no file and the decode error. -/
theorem ToFileSet_error (unmarshal : Unmarshal BlobMeta) (rows : List FileSchema) :
    ((ToFileSet unmarshal rows).2 ≠ none ↔
        ∃ row ∈ rows, (row.ToFile unmarshal).2 ≠ none) ∧
      ((ToFileSet unmarshal rows).2 ≠ none → (ToFileSet unmarshal rows).1 = none) ∧
      (∀ (pre : List FileSchema) (row : FileSchema) (post : List FileSchema) (err : GoError),
        rows = pre ++ row :: post →
        (∀ x ∈ pre, (x.ToFile unmarshal).2 = none) →
        (row.ToFile unmarshal).2 = some err →
        ToFileSet unmarshal rows = (none, some err)) ∧
      (∀ row : FileSchema,
        (row.ToFile unmarshal).2 ≠ none ↔ (unmarshal row.Meta BlobMeta.zero).2 ≠ none) ∧
      (∀ (row : FileSchema) (err : GoError),
        (unmarshal row.Meta BlobMeta.zero).2 = some err →
        row.ToFile unmarshal = (none, some err)) := by
  have hloop := ToFileSet_loop_error unmarshal rows 0 (List.replicate rows.length none)
  refine ⟨?_, hloop.2, ?_, ?_, ?_⟩
  · simp only [ToFile_error]
    exact hloop.1
  · intro pre row post err hrows hpre hrow
    subst hrows
    simp only [ToFile_error] at hpre hrow
    exact ToFileSet_loop_of_failed unmarshal pre row post err _ _ hpre hrow
  · intro row
    rw [ToFile_error]
  · exact ToFile_of_failed unmarshal

/-- An instance of C8: the second of three rows does not decode. -/
theorem ToFileSet_error_witness :
    (∀ x ∈ [sampleFileRow "1"], (x.ToFile unmarshalEmptyObject).2 = none) ∧
      ((brokenFileRow "2").ToFile unmarshalEmptyObject).2 = some "invalid character" ∧
      ToFileSet unmarshalEmptyObject [sampleFileRow "1", brokenFileRow "2", sampleFileRow "3"] =
        (none, some "invalid character") :=
  ⟨by decide, by decide,
    (ToFileSet_error unmarshalEmptyObject
      [sampleFileRow "1", brokenFileRow "2", sampleFileRow "3"]).2.2.1
      [sampleFileRow "1"] (brokenFileRow "2") [sampleFileRow "3"] "invalid character" rfl
      (by decide) (by decide)⟩

/-! ## Integer conversions of the framework column -/

theorem toNat_toUint8 (x : Int) (h0 : 0 ≤ x) (h1 : x ≤ 255) : ((toUint8 x).toNat : Int) = x := by
  unfold toUint8
  have hx : (x % 256).toNat = x.toNat := by
    rw [Int.emod_eq_of_lt h0 (by omega)]
  have hlt : x.toNat < UInt8.size := by
    show x.toNat < 256
    omega
  rw [hx, UInt8.toNat_ofNat_of_lt hlt]
  omega

theorem toUint8_toNat (u : UInt8) : toUint8 (u.toNat : Int) = u := by
  unfold toUint8
  have hlt : u.toNat < UInt8.size := u.val.isLt
  have hlt' : u.toNat < 256 := hlt
  have hx : ((u.toNat : Int) % 256).toNat = u.toNat := by omega
  rw [hx]
  apply UInt8.eq_of_toBitVec_eq
  apply BitVec.eq_of_toNat_eq
  exact UInt8.toNat_ofNat_of_lt hlt

theorem toInt8_of_range (x : Int) (h0 : -128 ≤ x) (h1 : x ≤ 127) : toInt8 x = x := by
  unfold toInt8
  omega

/-! ## Round trips of the entity mappers -/

/-- C11. Experiment mapping round trip: for an experiment whose framework value
lies in 0..255, mapping to the row and back keeps the id, the name, the owner,
the namespace, the external id, the framework and both timestamps, and gives
`Exists = false` whatever it was; mapping a row to an experiment and back
gives the row. -/
theorem experiment_round_trip (e : Experiment) (s : ExperimentSchema)
    (h0 : 0 ≤ e.Framework) (h1 : e.Framework ≤ 255) :
    ((FromExperimentToSchema e).ToExperiment.Id = e.Id ∧
        (FromExperimentToSchema e).ToExperiment.Name = e.Name ∧
        (FromExperimentToSchema e).ToExperiment.Owner = e.Owner ∧
        (FromExperimentToSchema e).ToExperiment.Namespace = e.Namespace ∧
        (FromExperimentToSchema e).ToExperiment.ExternalId = e.ExternalId ∧
        (FromExperimentToSchema e).ToExperiment.Framework = e.Framework ∧
        (FromExperimentToSchema e).ToExperiment.CreatedAt = e.CreatedAt ∧
        (FromExperimentToSchema e).ToExperiment.UpdatedAt = e.UpdatedAt ∧
        (FromExperimentToSchema e).ToExperiment.Exists = false) ∧
      FromExperimentToSchema s.ToExperiment = s := by
  refine ⟨⟨rfl, rfl, rfl, rfl, rfl, toNat_toUint8 e.Framework h0 h1, rfl, rfl, rfl⟩, ?_⟩
  cases s
  simp only [FromExperimentToSchema, ExperimentSchema.ToExperiment, toUint8_toNat]

/-- An instance of C11: the experiment of the test suite, marked as existing. -/
theorem experiment_round_trip_witness :
    (0 : Int) ≤ 1 ∧ (1 : Int) ≤ 255 ∧
      (FromExperimentToSchema
        ⟨str "e1", str "gpt3", str "owner", str "ns", str "xyz", 1, true, 5, 6⟩).ToExperiment =
        ⟨str "e1", str "gpt3", str "owner", str "ns", str "xyz", 1, false, 5, 6⟩ :=
  ⟨by decide, by decide, by
    have h := (experiment_round_trip
      ⟨str "e1", str "gpt3", str "owner", str "ns", str "xyz", 1, true, 5, 6⟩
      (FromExperimentToSchema sampleExperiment) (by decide) (by decide)).1
    exact (Experiment.mk.injEq _ _ _ _ _ _ _ _ _ _ _ _ _ _ _ _ _ _).mpr
      ⟨h.1, h.2.1, h.2.2.1, h.2.2.2.1, h.2.2.2.2.1, h.2.2.2.2.2.1, h.2.2.2.2.2.2.2.2,
        h.2.2.2.2.2.2.1, h.2.2.2.2.2.2.2.1⟩⟩

theorem ToModel_of_files (s : ModelSchema) (files : FileSet) (h : files ≠ none) :
    s.ToModel files =
      ⟨s.Id, s.Name, s.Owner, s.Namespace, s.Task, s.Desc, files, s.CreatedAt, s.UpdatedAt⟩ := by
  unfold ModelSchema.ToModel
  simp only [h, ne_eq, not_false_eq_true, if_true]

theorem ToModel_of_nil (s : ModelSchema) :
    s.ToModel none =
      ⟨s.Id, s.Name, s.Owner, s.Namespace, s.Task, s.Desc, some [], s.CreatedAt, s.UpdatedAt⟩ := by
  unfold ModelSchema.ToModel
  simp only [ne_eq, not_true_eq_false, if_false]

/-- C12. Model mapping round trip with files attached: mapping a model to its
row and back with a non-nil file list `f` keeps the id, the name, the owner,
the namespace, the task, the description and both timestamps, and has the
files `f`, the same in the same order; mapping a row to a model, with any
files, and back gives the row. -/
theorem model_round_trip (m : Model) (s : ModelSchema) (f g : FileSet) (hf : f ≠ none) :
    (((ModelToSchema m).ToModel f).Id = m.Id ∧
        ((ModelToSchema m).ToModel f).Name = m.Name ∧
        ((ModelToSchema m).ToModel f).Owner = m.Owner ∧
        ((ModelToSchema m).ToModel f).Namespace = m.Namespace ∧
        ((ModelToSchema m).ToModel f).Task = m.Task ∧
        ((ModelToSchema m).ToModel f).Description = m.Description ∧
        ((ModelToSchema m).ToModel f).CreatedAt = m.CreatedAt ∧
        ((ModelToSchema m).ToModel f).UpdatedAt = m.UpdatedAt ∧
        ((ModelToSchema m).ToModel f).Files = f) ∧
      ModelToSchema (s.ToModel g) = s := by
  refine ⟨?_, ?_⟩
  · rw [ToModel_of_files _ f hf]
    exact ⟨rfl, rfl, rfl, rfl, rfl, rfl, rfl, rfl, rfl⟩
  · cases g with
    | none => rw [ToModel_of_nil]; rfl
    | some l => rw [ToModel_of_files _ (some l) (by simp)]; rfl

/-- An instance of C12: the model of the test suite with two attached files. -/
theorem model_round_trip_witness :
    (some [(sampleFileRow "1").ToFile unmarshalEmptyObject |>.1,
        (sampleFileRow "2").ToFile unmarshalEmptyObject |>.1] : FileSet) ≠ none ∧
      ((ModelToSchema sampleModel).ToModel
        (some [(sampleFileRow "1").ToFile unmarshalEmptyObject |>.1,
          (sampleFileRow "2").ToFile unmarshalEmptyObject |>.1])).Files =
        some [(sampleFileRow "1").ToFile unmarshalEmptyObject |>.1,
          (sampleFileRow "2").ToFile unmarshalEmptyObject |>.1] :=
  ⟨by simp,
    (model_round_trip sampleModel (ModelToSchema sampleModel)
      (some [(sampleFileRow "1").ToFile unmarshalEmptyObject |>.1,
        (sampleFileRow "2").ToFile unmarshalEmptyObject |>.1]) none (by simp)).1.2.2.2.2.2.2.2.2⟩

/-- C13. ModelVersion mapping round trip: for a model version whose framework
value lies in 0..127, mapping to the row and back with its own files keeps the
id, the name, the model id, the version, the description, the framework, the
files, the unique tags (the same in the same order) and both timestamps. -/
theorem modelVersion_round_trip (mv : ModelVersion)
    (h0 : 0 ≤ mv.Framework) (h1 : mv.Framework ≤ 127) :
    ((ModelVersionToSchema mv).ToModelVersion mv.Files).Id = mv.Id ∧
      ((ModelVersionToSchema mv).ToModelVersion mv.Files).Name = mv.Name ∧
      ((ModelVersionToSchema mv).ToModelVersion mv.Files).ModelId = mv.ModelId ∧
      ((ModelVersionToSchema mv).ToModelVersion mv.Files).Version = mv.Version ∧
      ((ModelVersionToSchema mv).ToModelVersion mv.Files).Description = mv.Description ∧
      ((ModelVersionToSchema mv).ToModelVersion mv.Files).Framework = mv.Framework ∧
      ((ModelVersionToSchema mv).ToModelVersion mv.Files).Files = mv.Files ∧
      ((ModelVersionToSchema mv).ToModelVersion mv.Files).UniqueTags = mv.UniqueTags ∧
      ((ModelVersionToSchema mv).ToModelVersion mv.Files).CreatedAt = mv.CreatedAt ∧
      ((ModelVersionToSchema mv).ToModelVersion mv.Files).UpdatedAt = mv.UpdatedAt ∧
      (ModelVersionToSchema mv).ToModelVersion mv.Files = mv :=
  have hfw : toInt8 mv.Framework = mv.Framework := toInt8_of_range _ (Int.le_trans (by decide) h0) h1
  ⟨rfl, rfl, rfl, rfl, rfl, hfw, rfl, rfl, rfl, rfl, by
    cases mv
    simp only [ModelVersionToSchema, ModelVersionSchema.ToModelVersion] at hfw ⊢
    rw [hfw]⟩

/-- An instance of C13: the model version of the test suite. -/
theorem modelVersion_round_trip_witness :
    0 ≤ sampleModelVersion.Framework ∧ sampleModelVersion.Framework ≤ 127 ∧
      (ModelVersionToSchema sampleModelVersion).ToModelVersion sampleModelVersion.Files =
        sampleModelVersion :=
  ⟨by decide, by decide,
    (modelVersion_round_trip sampleModelVersion (by decide) (by decide)).2.2.2.2.2.2.2.2.2.2⟩

/-- C17, the claim as stated fails: a row with a negative framework value and
nil tags comes back from the two mappers as it was, although the claim
counts a negative framework among the rows that come back different. -/
theorem modelVersion_tags_counterexample :
    (⟨str "v1", str "test-version", str "gpt3", str "1", str "testing", -1,
        some [str "foo", str "bar"], none, 5, 6⟩ : ModelVersionSchema).Framework < 0 ∧
      ModelVersionToSchema
        ((⟨str "v1", str "test-version", str "gpt3", str "1", str "testing", -1,
          some [str "foo", str "bar"], none, 5, 6⟩ : ModelVersionSchema).ToModelVersion none) =
        ⟨str "v1", str "test-version", str "gpt3", str "1", str "testing", -1,
          some [str "foo", str "bar"], none, 5, 6⟩ := by
  refine ⟨by decide, ?_⟩
  have h : toInt8 (-1) = -1 := by decide
  simp only [ModelVersionToSchema, ModelVersionSchema.ToModelVersion, h]

/-- C17, amended. For a row whose framework value is an `int8` (-128..127) and
for any file set, mapping the row to a model version and back gives the row
with `Tags` replaced by the nil list and every other column kept, the
framework included whatever its sign; the result differs from the row
exactly when the `Tags` of the row are not nil. -/
theorem modelVersion_tags (s : ModelVersionSchema) (f : FileSet)
    (hlo : -128 ≤ s.Framework) (hhi : s.Framework ≤ 127) :
    ModelVersionToSchema (s.ToModelVersion f) =
        ⟨s.Id, s.Name, s.Model, s.Version, s.Desc, s.Framework, s.UniqueTags, none,
          s.CreatedAt, s.UpdatedAt⟩ ∧
      (ModelVersionToSchema (s.ToModelVersion f) ≠ s ↔ s.Tags ≠ none) := by
  have hfw : toInt8 s.Framework = s.Framework := toInt8_of_range _ hlo hhi
  have heq : ModelVersionToSchema (s.ToModelVersion f) =
      ⟨s.Id, s.Name, s.Model, s.Version, s.Desc, s.Framework, s.UniqueTags, none,
        s.CreatedAt, s.UpdatedAt⟩ := by
    simp only [ModelVersionToSchema, ModelVersionSchema.ToModelVersion, hfw]
  refine ⟨heq, ?_⟩
  rw [heq]
  cases s with
  | mk i n m v d fw ut t c u =>
    simp only [ne_eq, ModelVersionSchema.mk.injEq, true_and, and_true]
    exact ⟨fun h e => h e.symm, fun h e => h e.symm⟩

/-- An instance of C17 as amended: a row with tags and a negative framework. -/
theorem modelVersion_tags_witness :
    (-128 : Int) ≤ -3 ∧ (-3 : Int) ≤ 127 ∧
      ModelVersionToSchema
        ((⟨str "v1", str "test-version", str "gpt3", str "1", str "testing", -3,
          some [str "foo"], some [str "bar"], 5, 6⟩ : ModelVersionSchema).ToModelVersion
            (some [])) =
        ⟨str "v1", str "test-version", str "gpt3", str "1", str "testing", -3,
          some [str "foo"], none, 5, 6⟩ :=
  ⟨by decide, by decide,
    (modelVersion_tags
      ⟨str "v1", str "test-version", str "gpt3", str "1", str "testing", -3,
        some [str "foo"], some [str "bar"], 5, 6⟩ (some []) (by decide) (by decide)).1⟩

/-- C18. The file list of the mapped entities: `ToModel` with the nil file set
gives an empty, non-nil list, and with a non-nil file set, empty or not, it
gives that file set, so the list is never nil; `ToModelVersion` and
`ToCheckpoint` with the nil file set give the nil list. -/
theorem ToModel_files (s : ModelSchema) (v : ModelVersionSchema) (c : CheckpointSchema)
    (f : FileSet) :
    (s.ToModel none).Files = some [] ∧
      (f ≠ none → (s.ToModel f).Files = f) ∧
      (s.ToModel f).Files ≠ none ∧
      (v.ToModelVersion none).Files = none ∧
      (c.ToCheckpoint none).Files = none := by
  refine ⟨?_, ?_, ?_, rfl, rfl⟩
  · rw [ToModel_of_nil]
  · intro hf
    rw [ToModel_of_files s f hf]
  · cases f with
    | none => rw [ToModel_of_nil]; simp
    | some l => rw [ToModel_of_files s (some l) (by simp)]; simp

/-- An instance of C18: the empty, non-nil file set. -/
theorem ToModel_files_witness :
    (some [] : FileSet) ≠ none ∧
      ((ModelToSchema sampleModel).ToModel (some [])).Files = some [] :=
  ⟨by simp,
    (ToModel_files (ModelToSchema sampleModel) (ModelVersionToSchema sampleModelVersion)
      (ToCheckpointSchema sampleCheckpoint) (some [])).2.1 (by simp)⟩

/-! ## The scanners -/

/-- C16. `Scan` rejects a value of the wrong kind: for `SerializableMetadata`
and for `SerializablePayload`, a value that is not a byte slice, nil included,
gives the error `type assertion to []byte failed` and leaves the receiver map
as it was; a byte slice gives exactly what JSON-decoding it into the receiver
gives. -/
theorem Scan_rejects {V A : Type} (um : Unmarshal (GoMap V)) (up : Unmarshal (GoMap A))
    (s : SerializableMetadata V) (p : SerializablePayload A) (value : DriverValue) :
    ((∀ b, value ≠ DriverValue.bytes b) →
        SerializableMetadata.Scan um s value = (s, some "type assertion to []byte failed") ∧
        SerializablePayload.Scan up p value = (p, some "type assertion to []byte failed")) ∧
      SerializableMetadata.Scan um s DriverValue.null =
        (s, some "type assertion to []byte failed") ∧
      SerializablePayload.Scan up p DriverValue.null =
        (p, some "type assertion to []byte failed") ∧
      (∀ b, SerializableMetadata.Scan um s (DriverValue.bytes b) = um b s) ∧
      (∀ b, SerializablePayload.Scan up p (DriverValue.bytes b) = up b p) := by
  refine ⟨?_, rfl, rfl, fun _ => rfl, fun _ => rfl⟩
  intro h
  cases value with
  | bytes b => exact absurd rfl (h b)
  | null => exact ⟨rfl, rfl⟩
  | int64 v => exact ⟨rfl, rfl⟩
  | float64 x => exact ⟨rfl, rfl⟩
  | bool b => exact ⟨rfl, rfl⟩
  | string x => exact ⟨rfl, rfl⟩
  | time t => exact ⟨rfl, rfl⟩
  | other n => exact ⟨rfl, rfl⟩

/-- An instance of C16: a Go string that holds a JSON document is not a byte
slice, and the receiver keeps its entry. -/
theorem Scan_rejects_witness :
    (∀ b, DriverValue.string (str "\x7b\x7d") ≠ DriverValue.bytes b) ∧
      SerializableMetadata.Scan (fun _ _ => (GoMap.mk [], none))
          (GoMap.mk [(str "k", 1)] : GoMap Nat) (DriverValue.string (str "\x7b\x7d")) =
        (GoMap.mk [(str "k", 1)], some "type assertion to []byte failed") :=
  ⟨fun _ h => DriverValue.noConfusion h,
    ((Scan_rejects (fun _ _ => (GoMap.mk [], none)) (fun _ _ => (GoMap.mk [], none))
      (GoMap.mk [(str "k", 1)] : GoMap Nat) (GoMap.mk [(str "k", 1)] : GoMap Nat)
      (DriverValue.string (str "\x7b\x7d"))).1 (fun _ h => DriverValue.noConfusion h)).1⟩

/-! ## The identity of a file -/

/-- C19. A file's identity comes from the row: when the metadata of a row
decodes, `ToFile` returns a file with the id and the parent id of the row,
whatever the metadata bytes are, and with the type, path, checksum and
timestamps decoded from the metadata into a zero `BlobMeta`, so that a field
the decoder does not assign (its key is missing) has its zero value. -/
theorem ToFile_identity (unmarshal : Unmarshal BlobMeta) (row : FileSchema)
    (hdec : (unmarshal row.Meta BlobMeta.zero).2 = none) :
    (∃ file, row.ToFile unmarshal = (some file, none) ∧
        file.Id = row.Id ∧ file.ParentId = row.ParentId ∧
        file.Type' = (unmarshal row.Meta BlobMeta.zero).1.Type' ∧
        file.Path = (unmarshal row.Meta BlobMeta.zero).1.Path ∧
        file.Checksum = (unmarshal row.Meta BlobMeta.zero).1.Checksum ∧
        file.CreatedAt = (unmarshal row.Meta BlobMeta.zero).1.CreatedAt ∧
        file.UpdatedAt = (unmarshal row.Meta BlobMeta.zero).1.UpdatedAt ∧
        ((∀ v, (unmarshal row.Meta v).1.Type' = v.Type') → file.Type' = 0) ∧
        ((∀ v, (unmarshal row.Meta v).1.Path = v.Path) → file.Path = []) ∧
        ((∀ v, (unmarshal row.Meta v).1.Checksum = v.Checksum) → file.Checksum = []) ∧
        ((∀ v, (unmarshal row.Meta v).1.CreatedAt = v.CreatedAt) → file.CreatedAt = 0) ∧
        ((∀ v, (unmarshal row.Meta v).1.UpdatedAt = v.UpdatedAt) → file.UpdatedAt = 0)) ∧
      (∀ data : List UInt8, (unmarshal data BlobMeta.zero).2 = none →
        ∃ file, FileSchema.ToFile unmarshal ⟨row.Id, row.ParentId, data⟩ = (some file, none) ∧
          file.Id = row.Id ∧ file.ParentId = row.ParentId) := by
  refine ⟨⟨_, ToFile_of_decoded unmarshal row hdec, rfl, rfl, rfl, rfl, rfl, rfl, rfl,
    fun h => h BlobMeta.zero, fun h => h BlobMeta.zero, fun h => h BlobMeta.zero,
    fun h => h BlobMeta.zero, fun h => h BlobMeta.zero⟩, ?_⟩
  intro data hdata
  exact ⟨_, ToFile_of_decoded unmarshal ⟨row.Id, row.ParentId, data⟩ hdata, rfl, rfl⟩

/-- An instance of C19: the metadata carries an `Id` of its own and a path;
the file has the id of the row, the path of the metadata and no checksum. -/
theorem ToFile_identity_witness :
    (unmarshalPathOnly
        (str "\x7b\x22Id\x22:\x22x\x22,\x22Path\x22:\x22/foo/bar\x22\x7d") BlobMeta.zero).2 =
        none ∧
      ∃ file,
        FileSchema.ToFile unmarshalPathOnly
            ⟨str "f1", str "gpt3",
              str "\x7b\x22Id\x22:\x22x\x22,\x22Path\x22:\x22/foo/bar\x22\x7d"⟩ =
          (some file, none) ∧
        file.Id = str "f1" ∧ file.ParentId = str "gpt3" ∧ file.Path = str "/foo/bar" ∧
        file.Checksum = [] :=
  ⟨by decide, by
    obtain ⟨file, h, hid, hpar, _, hpath, _, _, _, _, _, hsum, _, _⟩ :=
      (ToFile_identity unmarshalPathOnly
        ⟨str "f1", str "gpt3",
          str "\x7b\x22Id\x22:\x22x\x22,\x22Path\x22:\x22/foo/bar\x22\x7d"⟩ (by decide)).1
    refine ⟨file, h, hid, hpar, ?_, ?_⟩
    · rw [hpath]; decide
    · apply hsum
      intro v
      unfold unmarshalPathOnly
      split
      · rfl
      · split <;> rfl⟩

/-! ## The union of metadata rows -/

section Union

variable {V : Type}

theorem get?_assign (es : List (GoString × V)) (k k' : GoString) (v : V) :
    (GoMap.mk (assign es k v)).get? k' =
      if k' = k then some v else (GoMap.mk es).get? k' := by
  unfold GoMap.get? GoMap.entries
  induction es with
  | nil =>
    by_cases h : k' = k
    · simp [assign, h]
    · have h' : ¬ k = k' := fun e => h e.symm
      simp [assign, h, h']
  | cons e rest ih =>
    obtain ⟨k₀, v₀⟩ := e
    by_cases h₀ : k₀ = k
    · subst h₀
      by_cases h : k' = k₀
      · simp [assign, h]
      · have h' : ¬ k₀ = k' := fun e => h e.symm
        simp [assign, h, h', List.find?_cons]
    · by_cases h : k₀ = k'
      · have hk : ¬ k' = k := fun e => h₀ (h.trans e)
        simp [assign, h₀, h, hk, List.find?_cons]
      · simp only [assign, h₀, if_false, List.find?_cons]
        have hb : (k₀ == k') = false := by simpa using h
        simp only [hb]
        exact ih

theorem mem_keys_iff (m : GoMap V) (k : GoString) :
    k ∈ m.keys ↔ (m.get? k).isSome = true := by
  unfold GoMap.keys GoMap.get?
  generalize m.entries = es
  induction es with
  | nil => simp
  | cons e rest ih =>
    obtain ⟨k₀, v₀⟩ := e
    by_cases h : k₀ = k
    · simp [h, List.find?_cons]
    · have hb : (k₀ == k) = false := by simpa using h
      have h' : ¬ k = k₀ := fun e => h e.symm
      simp only [List.map_cons, List.mem_cons, h', false_or, List.find?_cons, hb]
      exact ih

theorem keys_assign (es : List (GoString × V)) (k : GoString) (v : V) :
    (assign es k v).map Prod.fst =
      if k ∈ es.map Prod.fst then es.map Prod.fst else es.map Prod.fst ++ [k] := by
  induction es with
  | nil => simp [assign]
  | cons e rest ih =>
    obtain ⟨k₀, v₀⟩ := e
    by_cases h : k₀ = k
    · simp [assign, h]
    · have h' : ¬ k = k₀ := fun e => h e.symm
      simp only [assign, h, if_false, List.map_cons, ih, List.mem_cons, h', false_or]
      split <;> simp

theorem nodup_keys_assign (es : List (GoString × V)) (k : GoString) (v : V)
    (h : (es.map Prod.fst).Nodup) : ((assign es k v).map Prod.fst).Nodup := by
  rw [keys_assign]
  split
  · exact h
  · rename_i hk
    exact List.nodup_append.mpr ⟨h, List.nodup_singleton k, by
      intro a ha hb
      rw [List.mem_singleton] at hb
      exact hk (hb ▸ ha)⟩

/-- The entry of a key after the inner loop of `toMetadata` over one row. -/
theorem get?_foldl_assign (l acc : List (GoString × V)) (hl : (l.map Prod.fst).Nodup)
    (k : GoString) :
    (GoMap.mk (l.foldl (fun md kv => assign md kv.1 kv.2) acc)).get? k =
      ((GoMap.mk l).get? k).or ((GoMap.mk acc).get? k) := by
  induction l generalizing acc with
  | nil => simp [GoMap.get?, GoMap.entries]
  | cons e rest ih =>
    obtain ⟨k₀, v₀⟩ := e
    simp only [List.map_cons, List.nodup_cons] at hl
    simp only [List.foldl_cons]
    rw [ih _ hl.2, get?_assign]
    by_cases h : k = k₀
    · subst h
      have hnone : (GoMap.mk rest).get? k = none := by
        have := (mem_keys_iff (GoMap.mk rest) k).not.mp hl.1
        simpa using this
      have hhead : (GoMap.mk ((k, v₀) :: rest)).get? k = some v₀ := by
        simp [GoMap.get?, GoMap.entries, List.find?_cons]
      rw [hnone, hhead]
      simp
    · have hb : (k₀ == k) = false := by
        have h' : ¬ k₀ = k := fun e => h e.symm
        simpa using h'
      have htail : (GoMap.mk ((k₀, v₀) :: rest)).get? k = (GoMap.mk rest).get? k := by
        simp [GoMap.get?, GoMap.entries, List.find?_cons, hb]
      rw [htail]
      simp [h]

theorem nodup_keys_foldl_assign (l acc : List (GoString × V))
    (h : (acc.map Prod.fst).Nodup) :
    ((l.foldl (fun md kv => assign md kv.1 kv.2) acc).map Prod.fst).Nodup := by
  induction l generalizing acc with
  | nil => exact h
  | cons e rest ih => exact ih _ (nodup_keys_assign acc e.1 e.2 h)

theorem nodup_keys_foldl_rows (rows : List (MetadataSchema V)) (acc : List (GoString × V))
    (h : (acc.map Prod.fst).Nodup) :
    ((rows.foldl
      (fun metadata m =>
        m.Metadata.entries.foldl (fun md kv => assign md kv.1 kv.2) metadata) acc).map
      Prod.fst).Nodup := by
  induction rows generalizing acc with
  | nil => exact h
  | cons row rest ih => exact ih _ (nodup_keys_foldl_assign row.Metadata.entries acc h)

/-- The entry of a key after the outer loop of `toMetadata` over some rows:
each row that has the key overrides what was there. -/
theorem get?_foldl_rows (rows : List (MetadataSchema V)) (acc : List (GoString × V))
    (hwf : ∀ row ∈ rows, row.Metadata.WF) (k : GoString) :
    (GoMap.mk (rows.foldl
      (fun metadata m =>
        m.Metadata.entries.foldl (fun md kv => assign md kv.1 kv.2) metadata) acc)).get? k =
      rows.foldl (fun o row => (row.Metadata.get? k).or o) ((GoMap.mk acc).get? k) := by
  induction rows generalizing acc with
  | nil => rfl
  | cons row rest ih =>
    simp only [List.foldl_cons]
    rw [ih _ (fun r hr => hwf r (List.mem_cons_of_mem _ hr))]
    rw [get?_foldl_assign row.Metadata.entries acc (hwf row (List.mem_cons_self _ _)) k]
    rfl

theorem isSome_foldl_or {α β : Type} (f : α → Option β) (l : List α) (o : Option β) :
    (l.foldl (fun o x => (f x).or o) o).isSome = true ↔
      o.isSome = true ∨ ∃ x ∈ l, (f x).isSome = true := by
  induction l generalizing o with
  | nil => simp
  | cons x xs ih =>
    simp only [List.foldl_cons, ih, List.mem_cons, exists_eq_or_imp]
    cases hfx : f x with
    | none => simp
    | some b => simp

theorem foldl_or_of_none {α β : Type} (f : α → Option β) (l : List α) (o : Option β)
    (h : ∀ x ∈ l, f x = none) : l.foldl (fun o x => (f x).or o) o = o := by
  induction l generalizing o with
  | nil => rfl
  | cons x xs ih =>
    simp only [List.foldl_cons, h x (List.mem_cons_self _ _)]
    rw [ih _ (fun y hy => h y (List.mem_cons_of_mem _ hy))]
    rfl

/-- C15. `toMetadata` is a right-biased union of its rows: a key is in the
result exactly when it is in the map of one of the rows, it maps to the value
it has in the last row that contains it, no key occurs twice, and the result
is never the nil map; for no rows it is the empty non-nil map. -/
theorem toMetadata_union (rows : List (MetadataSchema V))
    (hwf : ∀ row ∈ rows, row.Metadata.WF) :
    (∀ k, k ∈ (toMetadata rows).keys ↔ ∃ row ∈ rows, k ∈ row.Metadata.keys) ∧
      (∀ (pre : List (MetadataSchema V)) (row : MetadataSchema V)
          (post : List (MetadataSchema V)) (k : GoString) (v : V),
        rows = pre ++ row :: post → row.Metadata.get? k = some v →
        (∀ r ∈ post, k ∉ r.Metadata.keys) → (toMetadata rows).get? k = some v) ∧
      (toMetadata rows).WF ∧
      toMetadata rows ≠ GoMap.nil ∧
      toMetadata ([] : List (MetadataSchema V)) = GoMap.mk [] := by
  have hget : ∀ k, (toMetadata rows).get? k =
      rows.foldl (fun o row => (row.Metadata.get? k).or o) none :=
    fun k => get?_foldl_rows rows [] hwf k
  refine ⟨?_, ?_, ?_, ?_, rfl⟩
  · intro k
    rw [mem_keys_iff, hget, isSome_foldl_or]
    simp only [Option.isSome_none, Bool.false_eq_true, false_or]
    constructor
    · rintro ⟨row, hrow, h⟩
      exact ⟨row, hrow, (mem_keys_iff _ _).mpr h⟩
    · rintro ⟨row, hrow, h⟩
      exact ⟨row, hrow, (mem_keys_iff _ _).mp h⟩
  · intro pre row post k v hrows hrow hpost
    rw [hget, hrows, List.foldl_append, List.foldl_cons, hrow]
    rw [foldl_or_of_none (fun r => r.Metadata.get? k) post]
    · rfl
    · intro r hr
      have h := (mem_keys_iff r.Metadata k).not.mp (hpost r hr)
      simpa using h
  · unfold GoMap.WF GoMap.keys toMetadata
    exact nodup_keys_foldl_rows rows [] List.nodup_nil
  · intro h
    exact GoMap.noConfusion h

/-- An instance of C15: the key `b` is in both rows and takes the value of the
second. -/
theorem toMetadata_union_witness :
    (∀ row ∈ [(⟨str "i1", str "p", GoMap.mk [(str "a", 1), (str "b", 2)]⟩ : MetadataSchema Nat),
        ⟨str "i2", str "p", GoMap.mk [(str "b", 3)]⟩], row.Metadata.WF) ∧
      (toMetadata
        [(⟨str "i1", str "p", GoMap.mk [(str "a", 1), (str "b", 2)]⟩ : MetadataSchema Nat),
          ⟨str "i2", str "p", GoMap.mk [(str "b", 3)]⟩]).get? (str "b") = some 3 :=
  have hwf : ∀ row ∈
      [(⟨str "i1", str "p", GoMap.mk [(str "a", 1), (str "b", 2)]⟩ : MetadataSchema Nat),
        ⟨str "i2", str "p", GoMap.mk [(str "b", 3)]⟩], row.Metadata.WF := by
    intro row h
    simp only [List.mem_cons, List.mem_singleton, List.not_mem_nil, or_false] at h
    rcases h with rfl | rfl
    · unfold GoMap.WF; decide
    · unfold GoMap.WF; decide
  ⟨hwf,
    (toMetadata_union _ hwf).2.1
      [⟨str "i1", str "p", GoMap.mk [(str "a", 1), (str "b", 2)]⟩]
      ⟨str "i2", str "p", GoMap.mk [(str "b", 3)]⟩ [] (str "b") 3 rfl (by decide)
      (fun _ h => absurd h (List.not_mem_nil _))⟩

end Union

/-! ## The change feed -/

section Feed

variable {A : Type}

theorem lt_nextMutationId (feed : List (MutationEventSchema A)) :
    ∀ e ∈ feed, e.MutationId < nextMutationId feed := by
  unfold nextMutationId
  induction feed with
  | nil => intro e he; exact absurd he (List.not_mem_nil _)
  | cons x xs ih =>
    intro e he
    simp only [List.map_cons, List.foldr_cons]
    rcases List.mem_cons.mp he with rfl | hmem
    · have := Nat.le_max_left e.MutationId (List.foldr max 0 (xs.map (fun e => e.MutationId)))
      omega
    · have h1 := ih e hmem
      have h2 := Nat.le_max_right x.MutationId (List.foldr max 0 (xs.map (fun e => e.MutationId)))
      omega

/-- The events a sequence of calls adds to what `ListChanges` selects: one per
call of the namespace, in call order, under ids that increase and lie above
the ids of the feed the calls started from. -/
theorem filter_mutatingCalls (ns : GoString) (t0 : Nat)
    (calls : List (Nat × MutationEventSchema A)) (feed : List (MutationEventSchema A))
    (ht : ∀ c ∈ calls, t0 ≤ c.1) :
    ∃ added : List (MutationEventSchema A),
      (mutatingCalls feed calls).filter (fun e => e.Namespace = ns ∧ t0 ≤ e.MutationTime) =
        feed.filter (fun e => e.Namespace = ns ∧ t0 ≤ e.MutationTime) ++ added ∧
      added.map (fun e => (e.Action, e.ObjectId, e.ObjectType)) =
        (calls.filter (fun c => c.2.Namespace = ns)).map
          (fun c => (c.2.Action, c.2.ObjectId, c.2.ObjectType)) ∧
      (added.map (fun e => e.MutationId)).Pairwise (fun a b => a < b) ∧
      (∀ x ∈ added, ∀ e ∈ feed, e.MutationId < x.MutationId) := by
  induction calls generalizing feed with
  | nil => exact ⟨[], by simp [mutatingCalls], rfl, List.Pairwise.nil, fun _ h => by simp at h⟩
  | cons c cs ih =>
    have htc : t0 ≤ c.1 := ht c (List.mem_cons_self _ _)
    obtain ⟨added, hfilter, hmap, hpair, hlow⟩ :=
      ih (AppendMutation feed c.1 c.2) (fun x hx => ht x (List.mem_cons_of_mem _ hx))
    have hstep : mutatingCalls feed (c :: cs) =
        mutatingCalls (AppendMutation feed c.1 c.2) cs := rfl
    have hin : ∀ e ∈ feed, e ∈ AppendMutation feed c.1 c.2 := fun e he =>
      List.mem_append_left _ he
    have hnew : ({ c.2 with MutationId := nextMutationId feed, MutationTime := c.1 } :
        MutationEventSchema A) ∈ AppendMutation feed c.1 c.2 :=
      List.mem_append_right _ (List.mem_singleton_self _)
    rw [hstep, hfilter]
    by_cases hns : c.2.Namespace = ns
    · refine ⟨{ c.2 with MutationId := nextMutationId feed, MutationTime := c.1 } :: added,
        ?_, ?_, ?_, ?_⟩
      · simp [AppendMutation, List.filter_append, List.filter_cons, hns, htc]
      · simp [List.filter_cons, hns, hmap]
      · simp only [List.map_cons, List.pairwise_cons]
        refine ⟨?_, hpair⟩
        intro b hb
        obtain ⟨x, hx, rfl⟩ := List.mem_map.mp hb
        exact hlow x hx _ hnew
      · intro x hx e he
        rcases List.mem_cons.mp hx with rfl | hmem
        · exact lt_nextMutationId feed e he
        · exact hlow x hmem e (hin e he)
    · refine ⟨added, ?_, ?_, hpair, fun x hx e he => hlow x hx e (hin e he)⟩
      · simp [AppendMutation, List.filter_append, List.filter_cons, hns]
      · simp [List.filter_cons, hns, hmap]

/-- C14. Change feed completeness: let the feed hold no event of the namespace
at or after the time `t0`, and let calls be made at times not before `t0`,
each appending one event. Then `ListChanges(ns, t0)` returns as many events
as calls were made within the namespace, the events of these calls in call
order, with strictly increasing `MutationId`; when all `N` calls are within
the namespace it returns exactly `N` events. -/
theorem change_feed_complete (feed : List (MutationEventSchema A)) (ns : GoString) (t0 : Nat)
    (calls : List (Nat × MutationEventSchema A))
    (h0 : ∀ e ∈ feed, e.Namespace = ns → e.MutationTime < t0)
    (ht : ∀ c ∈ calls, t0 ≤ c.1) :
    (ListChanges (mutatingCalls feed calls) ns t0).length =
        (calls.filter (fun c => c.2.Namespace = ns)).length ∧
      ((ListChanges (mutatingCalls feed calls) ns t0).map (fun e => e.MutationId)).Pairwise
        (fun a b => a < b) ∧
      (ListChanges (mutatingCalls feed calls) ns t0).map
          (fun e => (e.Action, e.ObjectId, e.ObjectType)) =
        (calls.filter (fun c => c.2.Namespace = ns)).map
          (fun c => (c.2.Action, c.2.ObjectId, c.2.ObjectType)) ∧
      ((∀ c ∈ calls, c.2.Namespace = ns) →
        (ListChanges (mutatingCalls feed calls) ns t0).length = calls.length) := by
  obtain ⟨added, hfilter, hmap, hpair, _⟩ := filter_mutatingCalls ns t0 calls feed ht
  have hold : feed.filter (fun e => e.Namespace = ns ∧ t0 ≤ e.MutationTime) = [] := by
    rw [List.filter_eq_nil_iff]
    intro e he
    have := h0 e he
    simp only [decide_eq_true_eq, not_and, Nat.not_le]
    exact this
  have hsorted : List.Sorted (fun a b : MutationEventSchema A => a.MutationId ≤ b.MutationId)
      added := by
    have h := List.pairwise_map.mp hpair
    exact h.imp (fun hab => Nat.le_of_lt hab)
  have hlist : ListChanges (mutatingCalls feed calls) ns t0 = added := by
    unfold ListChanges
    rw [hfilter, hold, List.nil_append]
    exact hsorted.insertionSort_eq
  have hlen : added.length = (calls.filter (fun c => c.2.Namespace = ns)).length := by
    have := congrArg List.length hmap
    simpa using this
  rw [hlist]
  refine ⟨hlen, hpair, hmap, ?_⟩
  intro hall
  rw [hlen]
  congr 1
  rw [List.filter_eq_self]
  intro c hc
  simpa using hall c hc

/-- An instance of C14, the one of `TestCreateExperiment`: one experiment
created in the namespace after `since` gives one change. -/
theorem change_feed_complete_witness :
    (∀ e ∈ ([] : List (MutationEventSchema Nat)),
        e.Namespace = str "ai/langtech/translation" → e.MutationTime < 7) ∧
      (∀ c ∈ [((7 : Nat), (⟨0, 0, str "create", str "e1", str "experiment", [],
          str "ai/langtech/translation", GoMap.nil⟩ : MutationEventSchema Nat))], 7 ≤ c.1) ∧
      (ListChanges
        (mutatingCalls []
          [((7 : Nat), (⟨0, 0, str "create", str "e1", str "experiment", [],
            str "ai/langtech/translation", GoMap.nil⟩ : MutationEventSchema Nat))])
        (str "ai/langtech/translation") 7).length = 1 :=
  ⟨fun _ h => absurd h (List.not_mem_nil _), by simp,
    ((change_feed_complete [] (str "ai/langtech/translation") 7
      [((7 : Nat), (⟨0, 0, str "create", str "e1", str "experiment", [],
        str "ai/langtech/translation", GoMap.nil⟩ : MutationEventSchema Nat))]
      (fun _ h => absurd h (List.not_mem_nil _)) (by simp)).2.2.2 (by simp))⟩

end Feed

/-! ## The value codec -/

end Modelbox
